import Mathlib

/-!
# Circular queue (queue.c / queue.h)

A shallow embedding of the byte queue of queue.c and the properties of its
specification.

Conventions of the embedding.

* The four uint16_t fields of the struct Q are natural numbers; every store that
  can leave the 16-bit range is reduced modulo 65536 explicitly.  Intermediate
  arithmetic is done in int, assumed to be at least 32 bits wide.
* The pointer field elements is an Option: none is the NULL pointer, some blk
  is a live heap block whose allocated bytes are exactly the entries of blk.
* A function of the C source whose execution can run into undefined behaviour
  (a NULL dereference, an access outside of the allocated block, a remainder by
  zero) returns an Option, and none stands for that undefined behaviour.
* Every call of the allocator gets its outcome as an explicit argument: none
  is an allocation failure, some g a success whose fresh bytes hold the
  indeterminate values g 0, g 1, ...
-/

namespace CircularQueue

/-! ## Data model -/

/-- One element of the queue, a uint8_t. -/
abbrev Byte := Fin 256

/-- The macro DEFAULT_QUEUE_SIZE of queue.h. -/
abbrev DEFAULT_QUEUE_SIZE : Nat := 128

/-- Number of values of a uint16_t. -/
abbrev UINT16_MOD : Nat := 65536

/-- A pointer to heap bytes: none is NULL, some blk a block of blk.length bytes. -/
abbrev Ptr := Option (List Byte)

/-- The struct Q of queue.h. -/
structure Q where
  head : Nat
  tail : Nat
  len : Nat
  elements : Ptr
  size : Nat
deriving DecidableEq

/-- Outcome of one allocator call: none is failure (NULL), some g is success with the
fresh bytes holding g 0, g 1, ... -/
abbrev Alloc := Option (Nat → Byte)

/-- The library call malloc(n) under the outcome a. -/
def malloc (a : Alloc) (n : Nat) : Ptr :=
  a.map fun g => (List.range n).map g

/-- The library call realloc(p, n) under the outcome a: on success the first
min(old size, n) bytes are those of the old block, the others are indeterminate. -/
def realloc (p : Ptr) (n : Nat) (a : Alloc) : Ptr :=
  a.map fun g => (List.range n).map fun i => (p.getD []).getD i (g i)

/-! ## The functions of queue.c -/

/-- The function q_init: a is the outcome of malloc(DEFAULT_QUEUE_SIZE); the size field is
written only when the allocation succeeded. -/
def q_init (q : Q) (a : Alloc) : Q :=
  let elements := malloc a DEFAULT_QUEUE_SIZE
  { head := 0, tail := 0, len := 0, elements := elements,
    size := if elements.isSome then DEFAULT_QUEUE_SIZE else q.size }

/-- The function q_len. -/
def q_len (q : Q) : Nat := q.len

/-- The function q_is_empty. -/
def q_is_empty (q : Q) : Bool := q.len == 0

/-- The function q_is_full. -/
def q_is_full (q : Q) : Bool := q.len == q.size

/-- The function q_remaining_capacity: the int difference size - len converted to
uint16_t. -/
def q_remaining_capacity (q : Q) : Nat := (q.size + UINT16_MOD - q.len) % UINT16_MOD

/-- One iteration of the copy loop of q_resize, for the loop index i:
newArray[i] = q->elements[(q->head + i) % q->size]. -/
def q_resize_body (q : Q) (newArray : Ptr) (i : Nat) : Option Ptr :=
  if q.size = 0 then none
  else
    match q.elements, newArray with
    | some old, some new =>
      match old[(q.head + i) % q.size]? with
      | some b => if i < new.length then some (some (new.set i b)) else none
      | none => none
    | _, _ => none

/-- The copy loop of q_resize, for (i = ...; i < len; i++): n is the number of iterations
still to run, len - i, and the result is the new array after the last one. -/
def q_resize_loop (q : Q) : Nat → Nat → Ptr → Option Ptr
  | 0, _, newArray => some newArray
  | n + 1, i, newArray =>
    match q_resize_body q newArray i with
    | none => none
    | some next => q_resize_loop q n (i + 1) next

/-- The function q_resize: a is the outcome of malloc(q->size * 2). -/
def q_resize (q : Q) (a : Alloc) : Option Q :=
  let len := q.len
  match q_resize_loop q len 0 (malloc a (q.size * 2)) with
  | none => none
  | some newArray =>
    some { head := 0, tail := len, len := len, elements := newArray,
           size := (q.size * 2) % UINT16_MOD }

/-- The function q_push: a is the outcome of the malloc of q_resize, consulted only when
the queue is full. -/
def q_push (q : Q) (e : Byte) (a : Alloc) : Option Q :=
  match (if q_is_full q then q_resize q a else some q) with
  | none => none
  | some q1 =>
    match q1.elements with
    | none => none
    | some blk =>
      if q1.tail < blk.length then
        if q1.size = 0 then none
        else
          some { q1 with elements := some (blk.set q1.tail e),
                         tail := (q1.tail + 1) % q1.size,
                         len := (q1.len + 1) % UINT16_MOD }
      else none

/-- The function q_pop: a is the outcome of the realloc of the shrink, consulted only
when the shrink happens.  The result is the returned element and the new state. -/
def q_pop (q : Q) (a : Alloc) : Option (Byte × Q) :=
  match q.elements with
  | none => none
  | some blk =>
    match blk[q.head]? with
    | none => none
    | some element =>
      if q.size = 0 then none
      else
        let q1 : Q := { q with head := (q.head + 1) % q.size,
                               len := (q.len + UINT16_MOD - 1) % UINT16_MOD }
        if q_is_empty q1 && decide (q1.size > DEFAULT_QUEUE_SIZE) then
          some (element, { q1 with elements := realloc q1.elements DEFAULT_QUEUE_SIZE a,
                                   size := DEFAULT_QUEUE_SIZE })
        else some (element, q1)

/-- The function q_delete: free followed by q_init; a is the outcome of the malloc of
q_init. -/
def q_delete (q : Q) (a : Alloc) : Q := q_init q a

/-- The index expression of q_peek, (q->head + index) & (q->size - 1), computed in int:
for size = 0 the mask is -1, all bits set. -/
def q_peek_index (q : Q) (index : Nat) : Nat :=
  if q.size = 0 then q.head + index else (q.head + index) &&& (q.size - 1)

/-- The function q_peek. -/
def q_peek (q : Q) (index : Nat) : Option Byte :=
  match q.elements with
  | none => none
  | some blk => blk[q_peek_index q index]?

/-! ## Sequences of calls -/

/-- One call of the interface, with the outcome of the allocator call it may make. -/
inductive Op where
  | push (e : Byte) (a : Alloc)
  | pop (a : Alloc)
  | delete (a : Alloc)

/-- Whether the call is a q_delete. -/
def Op.isDelete : Op → Bool
  | .delete _ => true
  | _ => false

/-- One call on the state q: the new state and the bytes returned (none or one). -/
def step (q : Q) : Op → Option (Q × List Byte)
  | .push e a => (q_push q e a).map fun q1 => (q1, [])
  | .pop a => (q_pop q a).map fun r => (r.2, [r.1])
  | .delete a => some (q_delete q a, [])

/-- A sequence of calls from the state q: the final state and the bytes returned by the
q_pop calls, in the order of the calls; none when some call has undefined behaviour. -/
def run (q : Q) : List Op → Option (Q × List Byte)
  | [] => some (q, [])
  | op :: ops =>
    match step q op with
    | none => none
    | some (q1, out) =>
      match run q1 ops with
      | none => none
      | some (q2, outs) => some (q2, out ++ outs)

/-- No call of the sequence is a q_delete. -/
def deleteFree (ops : List Op) : Bool := ops.all fun op => !op.isDelete

/-- The call q_push(e) with a successful allocation of contents g. -/
def pushOp (p : Byte × (Nat → Byte)) : Op := .push p.1 (some p.2)

/-! ## The abstract queue -/

/-- The abstract queue is the list of the bytes pushed and not yet popped, oldest first.
One call on it: push appends at the back, pop removes the front and is refused (none)
on the empty list, delete empties the list. -/
def absStep (l : List Byte) : Op → Option (List Byte × List Byte)
  | .push e _ => some (l ++ [e], [])
  | .pop _ =>
    match l with
    | [] => none
    | b :: rest => some (rest, [b])
  | .delete _ => some ([], [])

/-- A sequence of calls on the abstract queue; none when a pop meets the empty queue. -/
def absRun (l : List Byte) : List Op → Option (List Byte × List Byte)
  | [] => some (l, [])
  | op :: ops =>
    match absStep l op with
    | none => none
    | some (l1, out) =>
      match absRun l1 ops with
      | none => none
      | some (l2, outs) => some (l2, out ++ outs)

/-- Number of q_push calls in a sequence. -/
def pushCount : List Op → Nat
  | [] => 0
  | .push _ _ :: ops => pushCount ops + 1
  | _ :: ops => pushCount ops

/-- Number of q_pop calls in a sequence. -/
def popCount : List Op → Nat
  | [] => 0
  | .pop _ :: ops => popCount ops + 1
  | _ :: ops => popCount ops

/-- No q_pop of the sequence is called on an empty queue, pending being the number of
bytes in the queue at the start: a q_push adds one, a q_pop needs one and takes it, a
q_delete leaves none. -/
def popsGuarded (pending : Nat) : List Op → Bool
  | [] => true
  | .push _ _ :: ops => popsGuarded (pending + 1) ops
  | .pop _ :: ops => pending != 0 && popsGuarded (pending - 1) ops
  | .delete _ :: ops => popsGuarded 0 ops

/-! ## Concrete scenarios -/

/-- The bytes 0, 1, ..., n - 1. -/
def countBytes (n : Nat) : List Byte := (List.range n).map fun i => Fin.ofNat i

/-- Fresh heap bytes that all happen to read as zero. -/
def zeros : Nat → Byte := fun _ => 0

/-- Some content of the struct Q before q_init is called on it. -/
def junkQ : Q := { head := 7, tail := 9, len := 3, elements := none, size := 55 }

/-- The calls q_push(b) for the bytes b of bs, every allocation succeeding with zeros. -/
def pushAll (bs : List Byte) : List Op := bs.map fun b => Op.push b (some zeros)

/-- The call q_pop repeated n times, every allocation succeeding with zeros. -/
def popTimes (n : Nat) : List Op := List.replicate n (Op.pop (some zeros))

/-- Grow, drain, then use the queue again: 129 pushes, 129 pops, one more push and pop. -/
def growDrainReuse : List Op :=
  pushAll (countBytes 129) ++ popTimes 129 ++ [Op.push 7 (some zeros), Op.pop (some zeros)]

/-- The state after pushing the bytes 0 .. 199 onto a fresh queue whose allocations
return zeros. -/
def grown200 : Q :=
  { head := 0, tail := 200, len := 200,
    elements := some (countBytes 200 ++ List.replicate 56 0), size := 256 }

/-- The state after push 1, push 2, pop on a fresh queue whose allocation returned
zeros. -/
def afterTwoPushesOnePop : Q :=
  { head := 1, tail := 2, len := 1, elements := some (1 :: 2 :: List.replicate 126 0),
    size := 128 }

/-- The freshly initialised queue whose allocation returned zeros. -/
def freshZeros : Q :=
  { head := 0, tail := 0, len := 0, elements := some (List.replicate 128 0), size := 128 }

/-- The 129 pushes and 129 pops of growDrainReuse: grow once, then drain. -/
def growDrain : List Op := pushAll (countBytes 129) ++ popTimes 129

/-- A full queue of the largest capacity the doubling reaches, 32768 bytes, all zero. -/
def fullMax : Q :=
  { head := 0, tail := 0, len := 32768, elements := some (List.replicate 32768 0),
    size := 32768 }

/-- The last three statements of q_push, after the optional q_resize:
q->elements[q->tail] = e; q->tail = (q->tail + 1) % q->size; q->len++. -/
def pushStore (q : Q) (e : Byte) : Option Q :=
  match q.elements with
  | none => none
  | some blk =>
    if q.tail < blk.length then
      if q.size = 0 then none
      else
        some { q with elements := some (blk.set q.tail e),
                      tail := (q.tail + 1) % q.size,
                      len := (q.len + 1) % UINT16_MOD }
    else none

/-- The quantity (tail - head) mod size of the data model, a remainder of integers. -/
def ringDistance (q : Q) : Int := ((q.tail : Int) - (q.head : Int)) % (q.size : Int)

/-- A full queue of four bytes whose live region wraps around: the oldest byte, 12, is at
index 2. -/
def wrappedFull4 : Q :=
  { head := 2, tail := 2, len := 4, elements := some [10, 11, 12, 13], size := 4 }

/-- The state after growDrain and q_push(7) on an allocator that shrinks in place and
leaves the bytes beyond the 128-byte storage accessible: the 7 sits at index 129. -/
def shrunkInPlace : Q :=
  { head := 129, tail := 2, len := 1,
    elements := some (countBytes 129 ++ 7 :: List.replicate 126 0), size := 128 }

/-- Grow once and drain down to a single byte: 129 pushes, then 128 pops. -/
def growDrainButOne : List Op := pushAll (countBytes 129) ++ popTimes 128

/-! ## Representation invariant -/

/-- The capacities the 16-bit size field takes: DEFAULT_QUEUE_SIZE doubled at most eight
times. -/
def CapOk (n : Nat) : Prop := ∃ k, k ≤ 8 ∧ n = DEFAULT_QUEUE_SIZE * 2 ^ k

/-- The state q holds the abstract queue l in a live block of size bytes: l is stored from
head on, wrapping around at size, and tail is the slot after its last byte. -/
def Good (q : Q) (l : List Byte) : Prop :=
  CapOk q.size ∧ q.len = l.length ∧ q.len ≤ q.size ∧ q.head < q.size ∧
  q.tail = (q.head + q.len) % q.size ∧
  ∃ blk, q.elements = some blk ∧ blk.length = q.size ∧
    ∀ i, i < l.length → blk[(q.head + i) % q.size]? = l[i]?

/-- An empty state on which the next q_push has undefined behaviour: the pointer is NULL, or
the write index tail lies outside of the block.  The shrink of q_pop, which keeps head and
tail, and a failed allocation lead here. -/
def Stuck (q : Q) : Prop :=
  CapOk q.size ∧ q.len = 0 ∧ q.head = q.tail ∧
  (q.elements = none ∨ ∃ blk, q.elements = some blk ∧ blk.length ≤ q.tail)

/-- The invariant of the states reached from q_init by calls that respect the caller
obligation of q_pop; l is the abstract queue. -/
def Inv (q : Q) (l : List Byte) : Prop := Good q l ∨ (l = [] ∧ Stuck q)

/-- A capacity above the default holds at least one byte. -/
def GrownNonEmpty (q : Q) : Prop := DEFAULT_QUEUE_SIZE < q.size → 0 < q.len

/-! ## Arithmetic of the ring indices -/

theorem mod_add_inj {n h i j : Nat} (hi : i < n) (hj : j < n)
    (e : (h + i) % n = (h + j) % n) : i = j := by
  have h1 : i ≡ j [MOD n] := Nat.ModEq.add_left_cancel' h e
  have h2 : i % n = j % n := h1
  rwa [Nat.mod_eq_of_lt hi, Nat.mod_eq_of_lt hj] at h2

theorem capOk_pos {n : Nat} (h : CapOk n) : 128 ≤ n := by
  obtain ⟨k, _, rfl⟩ := h
  exact Nat.le_mul_of_pos_right _ (Nat.two_pow_pos k)

theorem capOk_le {n : Nat} (h : CapOk n) : n ≤ 32768 := by
  obtain ⟨k, hk, rfl⟩ := h
  have : 2 ^ k ≤ 2 ^ 8 := Nat.pow_le_pow_right (by decide) hk
  simp only [DEFAULT_QUEUE_SIZE]
  omega

theorem capOk_default : CapOk DEFAULT_QUEUE_SIZE := ⟨0, by decide, by simp⟩

theorem capOk_double {n : Nat} (h : CapOk n) (hn : n ≠ 32768) : CapOk (2 * n) := by
  obtain ⟨k, hk, rfl⟩ := h
  refine ⟨k + 1, ?_, by rw [pow_succ]; ring⟩
  rcases Nat.lt_or_eq_of_le hk with h1 | h1
  · omega
  · subst h1; exact absurd (by norm_num [DEFAULT_QUEUE_SIZE]) hn

theorem capOk_pow {n : Nat} (h : CapOk n) : ∃ m, n = 2 ^ m := by
  obtain ⟨k, _, rfl⟩ := h
  exact ⟨7 + k, by rw [pow_add]; norm_num [DEFAULT_QUEUE_SIZE]⟩

/-! ## The copy loop of q_resize -/

theorem q_resize_loop_spec (q : Q) (old : List Byte) (hs : q.size ≠ 0)
    (he : q.elements = some old) (hl : old.length = q.size) :
    ∀ (n i : Nat) (new : List Byte), i + n ≤ new.length →
      ∃ res, q_resize_loop q n i (some new) = some (some res) ∧ res.length = new.length ∧
        (∀ j, j < i → res[j]? = new[j]?) ∧
        (∀ j, i ≤ j → j < i + n → res[j]? = old[(q.head + j) % q.size]?) ∧
        (∀ j, i + n ≤ j → res[j]? = new[j]?) := by
  intro n
  induction n with
  | zero =>
    intro i new _
    exact ⟨new, rfl, rfl, fun _ _ => rfl, fun j h1 h2 => by omega, fun _ _ => rfl⟩
  | succ n ih =>
    intro i new hb
    have hlt : (q.head + i) % q.size < old.length := by
      rw [hl]; exact Nat.mod_lt _ (Nat.pos_of_ne_zero hs)
    have hi : i < new.length := by omega
    obtain ⟨res, hres, hlen, hlow, hmid, hhigh⟩ :=
      ih (i + 1) (new.set i old[(q.head + i) % q.size]) (by simp; omega)
    refine ⟨res, ?_, by simpa using hlen, ?_, ?_, ?_⟩
    · simp only [q_resize_loop, q_resize_body, hs, he, if_false,
        List.getElem?_eq_getElem hlt, hi, if_true]
      exact hres
    · intro j hj
      rw [hlow j (by omega), List.getElem?_set_ne (by omega)]
    · intro j h1 h2
      rcases Nat.eq_or_lt_of_le h1 with h3 | h3
      · subst h3
        rw [hlow i (by omega), List.getElem?_set_self hi, List.getElem?_eq_getElem hlt]
      · exact hmid j (by omega) (by omega)
    · intro j hj
      rw [hhigh j (by omega), List.getElem?_set_ne (by omega)]

/-! ## q_resize and q_push on the invariant -/

theorem q_resize_good {q : Q} {l : List Byte} (g : Nat → Byte) (hg : Good q l) :
    ∃ blk, q_resize q (some g) = some (Q.mk 0 q.len q.len (some blk) ((q.size * 2) % 65536)) ∧
      blk.length = q.size * 2 ∧ ∀ i, i < l.length → blk[i]? = l[i]? := by
  obtain ⟨hc, hlen, hle, hh, ht, old, he, hl, hcont⟩ := hg
  have hs : q.size ≠ 0 := by have := capOk_pos hc; omega
  obtain ⟨res, hres, hrl, -, hmid, -⟩ :=
    q_resize_loop_spec q old hs he hl q.len 0 ((List.range (q.size * 2)).map g)
      (by simp; omega)
  refine ⟨res, ?_, by simpa using hrl, ?_⟩
  · simp [q_resize, malloc, hres]
  · intro i hi
    rw [hmid i (Nat.zero_le _) (by omega), hcont i hi]

theorem q_push_of_resize {q q1 : Q} {e : Byte} {a : Alloc} (hf : q_is_full q = true)
    (hr : q_resize q a = some q1) (hn : q_is_full q1 = false) :
    q_push q e a = q_push q1 e a := by
  simp [q_push, hf, hr, hn]

theorem q_push_store {q : Q} {blk : List Byte} (e : Byte) (a : Alloc)
    (hnf : q_is_full q = false) (he : q.elements = some blk) (ht : q.tail < blk.length)
    (hs : q.size ≠ 0) :
    q_push q e a = some (Q.mk q.head ((q.tail + 1) % q.size) ((q.len + 1) % 65536)
      (some (blk.set q.tail e)) q.size) := by
  simp [q_push, hnf, he, ht, hs]

theorem q_push_room {q : Q} {l : List Byte} (e : Byte) (a : Alloc) (hg : Good q l)
    (hr : q.len < q.size) :
    ∃ q1, q_push q e a = some q1 ∧ Good q1 (l ++ [e]) ∧ q1.size = q.size ∧
      q1.head = q.head := by
  obtain ⟨hc, hlen, hle, hh, ht, blk, he, hl, hcont⟩ := hg
  have hs : q.size ≠ 0 := by omega
  have hmax := capOk_le hc
  have htl : q.tail < blk.length := by
    rw [hl, ht]; exact Nat.mod_lt _ (by omega)
  have hnf : q_is_full q = false := by simp [q_is_full]; omega
  refine ⟨_, q_push_store e a hnf he htl hs, ?_, rfl, rfl⟩
  have hl1 : (q.len + 1) % 65536 = q.len + 1 := Nat.mod_eq_of_lt (by omega)
  refine ⟨hc, by show (q.len + 1) % 65536 = (l ++ [e]).length; rw [hl1, hlen]; simp,
    by simp only [hl1]; omega, hh, ?_, blk.set q.tail e, rfl,
    by simpa using hl, ?_⟩
  · simp only [hl1, ht]
    rw [Nat.mod_add_mod, Nat.add_assoc]
  · intro i hi
    simp only [List.length_append, List.length_singleton] at hi
    rcases Nat.lt_or_ge i l.length with h1 | h1
    · have hne : q.tail ≠ (q.head + i) % q.size := by
        rw [ht]
        intro h2
        have := mod_add_inj (n := q.size) (by omega) (by omega) h2
        omega
      show (blk.set q.tail e)[(q.head + i) % q.size]? = _
      rw [List.getElem?_set_ne hne, hcont i h1, List.getElem?_append_left h1]
    · have h2 : i = q.len := by omega
      subst h2
      show (blk.set q.tail e)[(q.head + q.len) % q.size]? = _
      rw [← ht, List.getElem?_set_self htl, List.getElem?_append_right (by omega)]
      simp [hlen]

theorem q_push_grow {q : Q} {l : List Byte} (e : Byte) (g : Nat → Byte) (hg : Good q l)
    (hf : q.len = q.size) (hm : q.size ≠ 32768) :
    ∃ q1, q_push q e (some g) = some q1 ∧ Good q1 (l ++ [e]) ∧ q1.size = 2 * q.size ∧
      q1.head = 0 := by
  obtain ⟨blk, hres, hbl, hbc⟩ := q_resize_good g hg
  obtain ⟨hc, hlen, hle, hh, ht, -⟩ := hg
  have hmax := capOk_le hc
  have hpos := capOk_pos hc
  have hsz : (q.size * 2) % 65536 = 2 * q.size := by
    rw [Nat.mul_comm]; exact Nat.mod_eq_of_lt (by omega)
  rw [hsz] at hres
  have hg1 : Good (Q.mk 0 q.len q.len (some blk) (2 * q.size)) l := by
    refine ⟨capOk_double hc hm, hlen, ?_, ?_, ?_, blk, rfl, ?_, ?_⟩
    · show q.len ≤ 2 * q.size
      omega
    · show 0 < 2 * q.size
      omega
    · show q.len = (0 + q.len) % (2 * q.size)
      rw [Nat.zero_add, Nat.mod_eq_of_lt (by omega)]
    · show blk.length = 2 * q.size
      omega
    · intro i hi
      show blk[(0 + i) % (2 * q.size)]? = _
      rw [Nat.zero_add, Nat.mod_eq_of_lt (by omega)]
      exact hbc i hi
  have hfull : q_is_full q = true := by simp [q_is_full, hf]
  have hnf : q_is_full (Q.mk 0 q.len q.len (some blk) (2 * q.size)) = false := by
    simp [q_is_full]; omega
  rw [q_push_of_resize hfull hres hnf]
  exact q_push_room e (some g) hg1 (show q.len < 2 * q.size by omega)

theorem q_push_null_full {q : Q} {l : List Byte} (e : Byte) (hg : Good q l)
    (hf : q.len = q.size) : q_push q e none = none := by
  obtain ⟨hc, -, -, -, -, blk, he, -, -⟩ := hg
  have hpos := capOk_pos hc
  obtain ⟨n, hn⟩ : ∃ n, q.len = n + 1 := ⟨q.len - 1, by omega⟩
  have hs : q.size ≠ 0 := by omega
  have hr : q_resize q none = none := by
    simp only [q_resize, malloc, Option.map_none', hn, q_resize_loop, q_resize_body, hs,
      if_false, he]
  have hfull : q_is_full q = true := by simp [q_is_full, hf]
  simp [q_push, hfull, hr]

theorem q_push_max {q : Q} {l : List Byte} (e : Byte) (a : Alloc) (hg : Good q l)
    (hf : q.len = 32768) : q_push q e a = none := by
  have hle := hg.2.2.1
  have hmax := capOk_le hg.1
  have hsz : q.size = 32768 := by omega
  cases a with
  | none => exact q_push_null_full e hg (by omega)
  | some g =>
    obtain ⟨blk, hres, hbl, -⟩ := q_resize_good g hg
    have hfull : q_is_full q = true := by simp [q_is_full, hf, hsz]
    simp [q_push, hfull, hres, hsz]

theorem q_push_stuck {q : Q} (e : Byte) (a : Alloc) (hs : Stuck q) : q_push q e a = none := by
  obtain ⟨hc, hlen, -, hel⟩ := hs
  have hpos := capOk_pos hc
  have hnf : q_is_full q = false := by simp [q_is_full, hlen]; omega
  rcases hel with he | ⟨blk, he, hb⟩
  · simp [q_push, hnf, he]
  · simp [q_push, hnf, he]
    intro h; omega

theorem q_push_inv {q q1 : Q} {l : List Byte} {e : Byte} {a : Alloc} (hi : Inv q l)
    (hp : q_push q e a = some q1) : Good q1 (l ++ [e]) := by
  rcases hi with hg | ⟨-, hs⟩
  · rcases Nat.lt_or_ge q.len q.size with h1 | h1
    · obtain ⟨q2, h2, h3, -⟩ := q_push_room e a hg h1
      rw [hp] at h2; cases h2; exact h3
    · have hf : q.len = q.size := Nat.le_antisymm hg.2.2.1 h1
      cases a with
      | none => rw [q_push_null_full e hg hf] at hp; cases hp
      | some g =>
        by_cases hm : q.size = 32768
        · rw [q_push_max e (some g) hg (by omega)] at hp; cases hp
        · obtain ⟨q2, h2, h3, -⟩ := q_push_grow e g hg hf hm
          rw [hp] at h2; cases h2; exact h3
  · rw [q_push_stuck e a hs] at hp; cases hp

/-! ## q_pop, q_init and q_delete on the invariant -/

theorem q_pop_eq {q : Q} {blk : List Byte} {b : Byte} (a : Alloc)
    (he : q.elements = some blk) (hb : blk[q.head]? = some b) (hs : q.size ≠ 0) :
    q_pop q a = some (b,
      if (q.len + 65536 - 1) % 65536 = 0 ∧ 128 < q.size then
        Q.mk ((q.head + 1) % q.size) q.tail ((q.len + 65536 - 1) % 65536)
          (realloc (some blk) 128 a) 128
      else
        Q.mk ((q.head + 1) % q.size) q.tail ((q.len + 65536 - 1) % 65536) (some blk)
          q.size) := by
  simp only [q_pop, he, hb, hs, if_false, q_is_empty, DEFAULT_QUEUE_SIZE, UINT16_MOD,
    Bool.and_eq_true, beq_iff_eq, decide_eq_true_eq, gt_iff_lt]
  split <;> rfl

theorem realloc_length (p : Ptr) (n : Nat) (g : Nat → Byte) :
    ∃ blk, realloc p n (some g) = some blk ∧ blk.length = n :=
  ⟨_, rfl, by simp⟩

theorem q_pop_good {q : Q} {l : List Byte} {b : Byte} (a : Alloc) (hg : Good q (b :: l)) :
    ∃ q1, q_pop q a = some (b, q1) ∧ Inv q1 l ∧ GrownNonEmpty q1 ∧
      q1.head = (q.head + 1) % q.size ∧ q1.tail = q.tail := by
  obtain ⟨hc, hlen, hle, hh, ht, blk, he, hl, hcont⟩ := hg
  have hpos := capOk_pos hc
  have hmax := capOk_le hc
  have hs : q.size ≠ 0 := by omega
  simp only [List.length_cons] at hlen hcont
  have hb : blk[q.head]? = some b := by
    have := hcont 0 (by omega)
    rwa [Nat.add_zero, Nat.mod_eq_of_lt hh, List.getElem?_cons_zero] at this
  have hn : (q.len + 65536 - 1) % 65536 = l.length := by
    rw [hlen]; omega
  have hh1 : (q.head + 1) % q.size < q.size := Nat.mod_lt _ (by omega)
  refine ⟨_, q_pop_eq a he hb hs, ?_, ?_, ?_, ?_⟩
  · split
    next hcnd =>
      obtain ⟨h0, hbig⟩ := hcnd
      have hl0 : l = [] := List.eq_nil_of_length_eq_zero (by omega)
      subst hl0
      have hq1 : q.len = 1 := by simpa using hlen
      have htail : q.tail = (q.head + 1) % q.size := by rw [ht, hq1]
      cases a with
      | none =>
        exact Or.inr ⟨rfl, capOk_default, h0, htail.symm, Or.inl rfl⟩
      | some g =>
        obtain ⟨nb, hnb, hnl⟩ := realloc_length (some blk) 128 g
        rw [hnb]
        rcases Nat.lt_or_ge q.tail 128 with h1 | h1
        · refine Or.inl ⟨capOk_default, h0, ?_, ?_, ?_, nb, rfl, hnl, ?_⟩
          · show (q.len + 65536 - 1) % 65536 ≤ 128
            omega
          · show (q.head + 1) % q.size < 128
            omega
          · show q.tail = ((q.head + 1) % q.size + (q.len + 65536 - 1) % 65536) % 128
            rw [h0, ← htail, Nat.add_zero, Nat.mod_eq_of_lt h1]
          · intro i hi
            simp at hi
        · exact Or.inr ⟨rfl, capOk_default, h0, htail.symm, Or.inr ⟨nb, rfl, by
            show nb.length ≤ q.tail
            omega⟩⟩
    next hcnd =>
      refine Or.inl ⟨hc, hn, ?_, hh1, ?_, blk, rfl, hl, ?_⟩
      · show (q.len + 65536 - 1) % 65536 ≤ q.size
        omega
      · show q.tail = ((q.head + 1) % q.size + (q.len + 65536 - 1) % 65536) % q.size
        rw [hn, ht, hlen, Nat.mod_add_mod,
          show q.head + 1 + l.length = q.head + (l.length + 1) from by omega]
      · intro i hi
        show blk[((q.head + 1) % q.size + i) % q.size]? = _
        have := hcont (i + 1) (by omega)
        rw [List.getElem?_cons_succ] at this
        rw [← this, Nat.mod_add_mod, show q.head + 1 + i = q.head + (i + 1) from by omega]
  · intro hbig
    split at hbig
    next => exact absurd (show 128 < 128 from hbig) (by decide)
    next hcnd =>
      split
      next h2 => exact absurd h2 hcnd
      next =>
        show 0 < (q.len + 65536 - 1) % 65536
        have hbig1 : 128 < q.size := hbig
        rcases Nat.eq_zero_or_pos ((q.len + 65536 - 1) % 65536) with h0 | h0
        · exact absurd ⟨h0, hbig1⟩ hcnd
        · exact h0
  · split <;> rfl
  · split <;> rfl

theorem q_init_good (q : Q) (g : Nat → Byte) : Good (q_init q (some g)) [] := by
  refine ⟨capOk_default, rfl, Nat.zero_le _, show 0 < 128 by decide, rfl,
    (List.range 128).map g, rfl, by simp [q_init, malloc], ?_⟩
  intro i hi
  simp at hi

theorem q_init_inv (q : Q) (a : Alloc) (hc : CapOk q.size) : Inv (q_init q a) [] := by
  cases a with
  | none => exact Or.inr ⟨rfl, hc, rfl, rfl, Or.inl rfl⟩
  | some g => exact Or.inl (q_init_good q g)

theorem inv_capOk {q : Q} {l : List Byte} (h : Inv q l) : CapOk q.size := by
  rcases h with h | ⟨-, h⟩
  · exact h.1
  · exact h.1

theorem inv_len {q : Q} {l : List Byte} (h : Inv q l) : q.len = l.length := by
  rcases h with h | ⟨rfl, h⟩
  · exact h.2.1
  · exact h.2.1

theorem inv_cons {q : Q} {l : List Byte} {b : Byte} (h : Inv q (b :: l)) : Good q (b :: l) := by
  rcases h with h | ⟨h, -⟩
  · exact h
  · cases h

/-! ## Sequences of calls: simulation of the abstract queue -/

theorem step_inv {q q1 : Q} {l l1 : List Byte} {op : Op} {out out1 : List Byte}
    (hi : Inv q l) (hs : step q op = some (q1, out)) (ha : absStep l op = some (l1, out1)) :
    Inv q1 l1 ∧ out = out1 ∧ (op.isDelete = false → GrownNonEmpty q1) := by
  cases op with
  | push e a =>
    simp only [step, Option.map_eq_some', Prod.mk.injEq] at hs
    obtain ⟨q2, hp, rfl, rfl⟩ := hs
    simp only [absStep, Option.some.injEq, Prod.mk.injEq] at ha
    obtain ⟨rfl, rfl⟩ := ha
    have hg := q_push_inv hi hp
    refine ⟨Or.inl hg, rfl, fun _ _ => ?_⟩
    rw [hg.2.1]; simp
  | pop a =>
    cases l with
    | nil => simp [absStep] at ha
    | cons b l =>
      simp only [absStep, Option.some.injEq, Prod.mk.injEq] at ha
      obtain ⟨rfl, rfl⟩ := ha
      obtain ⟨q2, hp, h1, h2, -⟩ := q_pop_good a (inv_cons hi)
      simp only [step, hp, Option.map_some', Option.some.injEq, Prod.mk.injEq] at hs
      obtain ⟨rfl, rfl⟩ := hs
      exact ⟨h1, rfl, fun _ => h2⟩
  | delete a =>
    simp only [step, Option.some.injEq, Prod.mk.injEq] at hs
    obtain ⟨rfl, rfl⟩ := hs
    simp only [absStep, Option.some.injEq, Prod.mk.injEq] at ha
    obtain ⟨rfl, rfl⟩ := ha
    exact ⟨q_init_inv q a (inv_capOk hi), rfl, fun h => by simp [Op.isDelete] at h⟩

theorem run_cons_some {q q2 : Q} {op : Op} {ops : List Op} {outs : List Byte}
    (h : run q (op :: ops) = some (q2, outs)) :
    ∃ q1 out rest, step q op = some (q1, out) ∧ run q1 ops = some (q2, rest) ∧
      outs = out ++ rest := by
  simp only [run] at h
  cases hs : step q op with
  | none => simp [hs] at h
  | some r =>
    obtain ⟨q1, out⟩ := r
    simp only [hs] at h
    cases hr : run q1 ops with
    | none => simp [hr] at h
    | some r2 =>
      obtain ⟨q3, rest⟩ := r2
      simp only [hr, Option.some.injEq, Prod.mk.injEq] at h
      obtain ⟨rfl, rfl⟩ := h
      exact ⟨q1, out, rest, rfl, hr, rfl⟩

theorem absRun_cons_some {l l2 : List Byte} {op : Op} {ops : List Op} {outs : List Byte}
    (h : absRun l (op :: ops) = some (l2, outs)) :
    ∃ l1 out rest, absStep l op = some (l1, out) ∧ absRun l1 ops = some (l2, rest) ∧
      outs = out ++ rest := by
  simp only [absRun] at h
  cases hs : absStep l op with
  | none => simp [hs] at h
  | some r =>
    obtain ⟨l1, out⟩ := r
    simp only [hs] at h
    cases hr : absRun l1 ops with
    | none => simp [hr] at h
    | some r2 =>
      obtain ⟨l3, rest⟩ := r2
      simp only [hr, Option.some.injEq, Prod.mk.injEq] at h
      obtain ⟨rfl, rfl⟩ := h
      exact ⟨l1, out, rest, rfl, hr, rfl⟩

theorem run_inv : ∀ (ops : List Op) {q q1 : Q} {l l1 : List Byte} {outs outs1 : List Byte},
    Inv q l → run q ops = some (q1, outs) → absRun l ops = some (l1, outs1) →
    Inv q1 l1 ∧ outs = outs1 ∧
      ((∀ op ∈ ops, op.isDelete = false) → GrownNonEmpty q → GrownNonEmpty q1) := by
  intro ops
  induction ops with
  | nil =>
    intro q q1 l l1 outs outs1 hi hr ha
    simp only [run, Option.some.injEq, Prod.mk.injEq] at hr
    simp only [absRun, Option.some.injEq, Prod.mk.injEq] at ha
    obtain ⟨rfl, rfl⟩ := hr
    obtain ⟨rfl, rfl⟩ := ha
    exact ⟨hi, rfl, fun _ h => h⟩
  | cons op ops ih =>
    intro q q1 l l1 outs outs1 hi hr ha
    obtain ⟨q2, out, rest, hs, hr2, rfl⟩ := run_cons_some hr
    obtain ⟨l2, aout, arest, has, har2, rfl⟩ := absRun_cons_some ha
    obtain ⟨hi2, rfl, hgn⟩ := step_inv hi hs has
    obtain ⟨hi3, rfl, hgn3⟩ := ih hi2 hr2 har2
    refine ⟨hi3, rfl, fun hnd _ => ?_⟩
    exact hgn3 (fun o ho => hnd o (List.mem_cons_of_mem _ ho))
      (hgn (hnd op (List.mem_cons_self _ _)))

theorem run_append (q : Q) (xs ys : List Op) :
    run q (xs ++ ys) =
      match run q xs with
      | none => none
      | some (q1, o1) =>
        match run q1 ys with
        | none => none
        | some (q2, o2) => some (q2, o1 ++ o2) := by
  induction xs generalizing q with
  | nil =>
    simp only [List.nil_append, run, List.nil_append]
    cases run q ys with
    | none => rfl
    | some r => rfl
  | cons x xs ih =>
    have h1 : ∀ zs, run q (x :: zs) =
        match step q x with
        | none => none
        | some (q1, out) =>
          match run q1 zs with
          | none => none
          | some (q2, outs) => some (q2, out ++ outs) := fun _ => rfl
    rw [List.cons_append, h1, h1]
    cases hs : step q x with
    | none => rfl
    | some r =>
      obtain ⟨q1, out⟩ := r
      simp only []
      rw [ih]
      cases hr : run q1 xs with
      | none => rfl
      | some r1 =>
        obtain ⟨q2, o1⟩ := r1
        simp only []
        cases hr2 : run q2 ys with
        | none => rfl
        | some r2 => simp

/-! ## Sequences of calls that always complete -/

theorem run_pushes : ∀ (ps : List (Byte × (Nat → Byte))) {q : Q} {l : List Byte},
    Good q l → l.length + ps.length ≤ 32768 →
    ∃ q1, run q (ps.map pushOp) = some (q1, []) ∧ Good q1 (l ++ ps.map Prod.fst) ∧
      (q.head = 0 → q1.head = 0) ∧
      ((q.size = 128 ∨ q.size < 2 * q.len) → (q1.size = 128 ∨ q1.size < 2 * q1.len)) := by
  intro ps
  induction ps with
  | nil =>
    intro q l hg _
    exact ⟨q, rfl, by simpa using hg, fun h => h, fun h => h⟩
  | cons p ps ih =>
    intro q l hg hb
    simp only [List.length_cons] at hb
    have hlen := hg.2.1
    have hle := hg.2.2.1
    have key : ∃ q2, q_push q p.1 (some p.2) = some q2 ∧ Good q2 (l ++ [p.1]) ∧
        (q.head = 0 → q2.head = 0) ∧
        ((q.size = 128 ∨ q.size < 2 * q.len) → (q2.size = 128 ∨ q2.size < 2 * q2.len)) := by
      rcases Nat.lt_or_ge q.len q.size with h1 | h1
      · obtain ⟨q2, h2, h3, h4, h5⟩ := q_push_room p.1 (some p.2) hg h1
        refine ⟨q2, h2, h3, fun h => by rw [h5, h], fun h => ?_⟩
        have := h3.2.1
        simp only [List.length_append, List.length_singleton] at this
        omega
      · have hf : q.len = q.size := Nat.le_antisymm hle h1
        obtain ⟨q2, h2, h3, h4, h5⟩ := q_push_grow p.1 p.2 hg hf (by omega)
        refine ⟨q2, h2, h3, fun _ => h5, fun _ => ?_⟩
        have := h3.2.1
        simp only [List.length_append, List.length_singleton] at this
        omega
    obtain ⟨q2, hp, hg2, hh2, ht2⟩ := key
    obtain ⟨q3, hr, hg3, hh3, ht3⟩ := ih hg2 (by simp; omega)
    refine ⟨q3, ?_, by simpa using hg3, fun h => hh3 (hh2 h), fun h => ht3 (ht2 h)⟩
    simp [run, step, pushOp, hp, hr]

theorem run_pops : ∀ (l : List Byte) {q : Q} (as : List Alloc),
    Inv q l → as.length = l.length →
    ∃ q1, run q (as.map Op.pop) = some (q1, l) ∧ Inv q1 [] ∧
      (GrownNonEmpty q → GrownNonEmpty q1) := by
  intro l
  induction l with
  | nil =>
    intro q as hi hl
    have : as = [] := List.eq_nil_of_length_eq_zero hl
    subst this
    exact ⟨q, rfl, hi, fun h => h⟩
  | cons b l ih =>
    intro q as hi hl
    cases as with
    | nil => simp at hl
    | cons a as =>
      obtain ⟨q2, hp, h1, h2, -⟩ := q_pop_good a (inv_cons hi)
      obtain ⟨q3, hr, h3, h4⟩ := ih as h1 (by simpa using hl)
      refine ⟨q3, ?_, h3, fun _ => h4 h2⟩
      simp [run, step, hp, hr]

/-! ## Reachable states -/

theorem absRun_of_guarded : ∀ (ops : List Op) (l : List Byte),
    popsGuarded l.length ops = true →
    ∃ l1 o, absRun l ops = some (l1, o) ∧
      ((∀ op ∈ ops, op.isDelete = false) →
        l1.length + popCount ops = l.length + pushCount ops) := by
  intro ops
  induction ops with
  | nil => intro l _; exact ⟨l, [], rfl, fun _ => rfl⟩
  | cons op ops ih =>
    intro l hg
    cases op with
    | push e a =>
      simp only [popsGuarded] at hg
      obtain ⟨l1, o, h1, h2⟩ := ih (l ++ [e]) (by simpa using hg)
      refine ⟨l1, o, by simp [absRun, absStep, h1], fun hnd => ?_⟩
      have := h2 (fun o ho => hnd o (List.mem_cons_of_mem _ ho))
      simp only [List.length_append, List.length_singleton] at this
      simp only [popCount, pushCount]
      omega
    | pop a =>
      simp only [popsGuarded, Bool.and_eq_true, bne_iff_ne, ne_eq] at hg
      cases l with
      | nil => exact absurd rfl hg.1
      | cons b l =>
        obtain ⟨l1, o, h1, h2⟩ := ih l (by simpa using hg.2)
        refine ⟨l1, b :: o, by simp [absRun, absStep, h1], fun hnd => ?_⟩
        have := h2 (fun o ho => hnd o (List.mem_cons_of_mem _ ho))
        simp only [popCount, pushCount, List.length_cons]
        omega
    | delete a =>
      simp only [popsGuarded] at hg
      obtain ⟨l1, o, h1, -⟩ := ih [] hg
      refine ⟨l1, o, by simp [absRun, absStep, h1], fun hnd => ?_⟩
      have := hnd (Op.delete a) (List.mem_cons_self _ _)
      simp [Op.isDelete] at this

theorem reach_inv {q0 q : Q} {g : Nat → Byte} {ops : List Op} {outs : List Byte}
    (hg : popsGuarded 0 ops = true)
    (hr : run (q_init q0 (some g)) ops = some (q, outs)) :
    ∃ l, Inv q l ∧ absRun [] ops = some (l, outs) ∧
      ((∀ op ∈ ops, op.isDelete = false) →
        GrownNonEmpty q ∧ l.length + popCount ops = pushCount ops) := by
  obtain ⟨l1, o, h1, h2⟩ := absRun_of_guarded ops [] hg
  obtain ⟨h3, rfl, h4⟩ := run_inv ops (Or.inl (q_init_good q0 g)) hr h1
  refine ⟨l1, h3, h1, fun hnd => ⟨h4 hnd (fun h => absurd (show 128 < 128 from h) (by decide)), ?_⟩⟩
  simpa using h2 hnd

theorem run_pushes_init (q0 : Q) (g : Nat → Byte) (ps : List (Byte × (Nat → Byte)))
    (hn : ps.length ≤ 32768) :
    ∃ q1, run (q_init q0 (some g)) (ps.map pushOp) = some (q1, []) ∧
      Good q1 (ps.map Prod.fst) ∧ q1.head = 0 ∧ (q1.size = 128 ∨ q1.size < 2 * q1.len) := by
  obtain ⟨q1, h1, h2, h3, h4⟩ := run_pushes ps (q_init_good q0 g) (by simpa using hn)
  exact ⟨q1, h1, by simpa using h2, h3 rfl, h4 (Or.inl rfl)⟩

theorem drained_size {q : Q} (hi : Inv q []) (hg : GrownNonEmpty q) :
    q.size = 128 ∧ q_is_empty q = true ∧ q_remaining_capacity q = 128 := by
  have hlen : q.len = 0 := by simpa using inv_len hi
  have hpos := capOk_pos (inv_capOk hi)
  have hs : q.size = 128 := by
    rcases Nat.lt_or_ge 128 q.size with h | h
    · have := hg h; omega
    · omega
  exact ⟨hs, by simp [q_is_empty, hlen], by simp [q_remaining_capacity, hlen, hs]⟩

theorem capOk_between {n m : Nat} (hc : CapOk n) (hm : 128 < m) (hm2 : m ≤ 256)
    (h1 : m ≤ n) (h2 : n = 128 ∨ n < 2 * m) : n = 256 := by
  obtain ⟨k, hk, rfl⟩ := hc
  simp only [DEFAULT_QUEUE_SIZE] at *
  interval_cases k <;> omega

/-! ## The claims of the specification -/

/-- C1 as stated fails: 32769 pushes onto a freshly initialised queue do not complete. The
32769th q_push finds len = size = 32768, q_resize stores 65536 into the 16-bit size field,
which wraps to 0, and the following (tail + 1) % size is a remainder by zero. -/
theorem C1_counterexample :
    run (q_init junkQ (some zeros))
      ((List.replicate 32769 ((0 : Byte), zeros)).map pushOp ++
        (List.replicate 32769 (some zeros)).map Op.pop) = none := by
  have h : List.replicate 32769 ((0 : Byte), zeros) =
      List.replicate 32768 ((0 : Byte), zeros) ++ [((0 : Byte), zeros)] :=
    List.replicate_succ' 32768 _
  obtain ⟨q1, h1, h2, -⟩ := run_pushes_init junkQ zeros
    (List.replicate 32768 ((0 : Byte), zeros)) (by simp only [List.length_replicate]; omega)
  have h3 : q_push q1 0 (some zeros) = none :=
    q_push_max 0 (some zeros) h2 (by
      rw [h2.2.1]; simp only [List.length_map, List.length_replicate])
  rw [h, List.map_append, run_append, run_append, h1]
  simp only [List.map_cons, List.map_nil, run, step, pushOp, h3, Option.map_none']

/-- C1 (FIFO ordering, for the lengths the 16-bit fields can hold): for every n ≤ 32768 and
every byte sequence b1 .. bn, pushing b1, ..., bn onto a freshly initialised queue and then
calling q_pop n times completes and returns exactly b1, ..., bn in that order. Every push
may find its own fresh heap contents and every pop any allocator outcome. -/
theorem C1_fifo_bounded (q0 : Q) (g : Nat → Byte) (ps : List (Byte × (Nat → Byte)))
    (as : List Alloc) (hn : ps.length ≤ 32768) (ha : as.length = ps.length) :
    ∃ q, run (q_init q0 (some g)) (ps.map pushOp ++ as.map Op.pop) =
      some (q, ps.map Prod.fst) := by
  obtain ⟨q1, h1, h2, -⟩ := run_pushes_init q0 g ps hn
  obtain ⟨q2, h3, -⟩ := run_pops (ps.map Prod.fst) as (Or.inl h2) (by simpa using ha)
  exact ⟨q2, by rw [run_append, h1]; simp only [h3, List.nil_append]⟩

/-- C1 at a concrete input: the bytes 5, 6, 7. -/
theorem C1_fifo_bounded_witness :
    ([((5 : Byte), zeros), (6, zeros), (7, zeros)].length ≤ 32768 ∧
      [some zeros, none, none].length = [((5 : Byte), zeros), (6, zeros), (7, zeros)].length) ∧
    ∃ q, run (q_init junkQ (some zeros))
      ([((5 : Byte), zeros), (6, zeros), (7, zeros)].map pushOp ++
        [some zeros, none, none].map Op.pop) = some (q, [5, 6, 7]) :=
  ⟨⟨by decide, by decide⟩,
    C1_fifo_bounded junkQ zeros [((5 : Byte), zeros), (6, zeros), (7, zeros)]
      [some zeros, none, none] (by decide) (by decide)⟩

set_option maxRecDepth 100000 in
/-- C2 fails on the code: growDrainReuse never pops an empty queue, and the abstract queue
answers it with the bytes 0 .. 128 followed by 7, but the code has undefined behaviour. The
129th q_pop shrinks the storage to 128 bytes and leaves head = tail = 129, so the next q_push
writes elements[129], outside of the block. -/
theorem C2_reuse_after_shrink_undefined :
    popsGuarded 0 growDrainReuse = true ∧
    absRun [] growDrainReuse = some ([], countBytes 129 ++ [7]) ∧
    (run (q_init junkQ (some zeros)) (pushAll (countBytes 129) ++ popTimes 129)).map
      (fun r => (r.1.head, r.1.tail, r.1.len, r.1.size, r.1.elements.map List.length)) =
      some (129, 129, 0, 128, some 128) ∧
    run (q_init junkQ (some zeros)) growDrainReuse = none := by
  decide

theorem deleteFree_mem {ops : List Op} (h : deleteFree ops = true) :
    ∀ op ∈ ops, op.isDelete = false := by
  intro op ho
  simpa using (List.all_eq_true.mp h) op ho

set_option maxRecDepth 100000 in
/-- C3 as stated fails: one q_pop on a freshly initialised queue (zero pushes, one pop) leaves
q_len at 65535, which is neither 0 - 1 nor at most the capacity 128. -/
theorem C3_counterexample :
    pushCount [Op.pop none] = 0 ∧ popCount [Op.pop none] = 1 ∧
    (run (q_init junkQ (some zeros)) [Op.pop none]).map (fun r => (q_len r.1, r.1.size)) =
      some (65535, 128) := by
  decide

/-- C3 (length invariant, for calls that respect the obligation of q_pop): after every
sequence of q_push and q_pop calls on a freshly initialised queue in which q_pop is never
called on an empty queue and which the code executes without undefined behaviour, q_len
equals the number of pushes minus the number of pops, and 0 ≤ q_len ≤ size. -/
theorem C3_length_invariant (q0 q : Q) (g : Nat → Byte) (ops : List Op) (outs : List Byte)
    (hd : deleteFree ops = true) (hg : popsGuarded 0 ops = true)
    (hr : run (q_init q0 (some g)) ops = some (q, outs)) :
    popCount ops ≤ pushCount ops ∧ q_len q = pushCount ops - popCount ops ∧
      0 ≤ q_len q ∧ q_len q ≤ q.size := by
  obtain ⟨l, hi, -, h2⟩ := reach_inv hg hr
  obtain ⟨-, h3⟩ := h2 (deleteFree_mem hd)
  have hlen := inv_len hi
  have hle : q.len ≤ q.size := by
    rcases hi with h | ⟨-, h⟩
    · exact h.2.2.1
    · rw [h.2.1]; exact Nat.zero_le _
  simp only [q_len]
  omega

set_option maxRecDepth 100000 in
/-- C3 at a concrete input: push 1, push 2, pop. -/
theorem C3_length_invariant_witness :
    (deleteFree [Op.push 1 none, Op.push 2 none, Op.pop none] = true ∧
      popsGuarded 0 [Op.push 1 none, Op.push 2 none, Op.pop none] = true ∧
      run (q_init junkQ (some zeros)) [Op.push 1 none, Op.push 2 none, Op.pop none] =
        some (Q.mk 1 2 1 (some (1 :: 2 :: List.replicate 126 0)) 128, [1])) ∧
    (popCount [Op.push 1 none, Op.push 2 none, Op.pop none] ≤
        pushCount [Op.push 1 none, Op.push 2 none, Op.pop none] ∧
      q_len (Q.mk 1 2 1 (some (1 :: 2 :: List.replicate 126 0)) 128) =
        pushCount [Op.push 1 none, Op.push 2 none, Op.pop none] -
          popCount [Op.push 1 none, Op.push 2 none, Op.pop none] ∧
      0 ≤ q_len (Q.mk 1 2 1 (some (1 :: 2 :: List.replicate 126 0)) 128) ∧
      q_len (Q.mk 1 2 1 (some (1 :: 2 :: List.replicate 126 0)) 128) ≤
        (Q.mk 1 2 1 (some (1 :: 2 :: List.replicate 126 0)) 128).size) :=
  ⟨⟨by decide, by decide, by decide⟩,
    C3_length_invariant junkQ _ zeros [Op.push 1 none, Op.push 2 none, Op.pop none] [1]
      (by decide) (by decide) (by decide)⟩

/-- C4 (growth correctness): for every byte sequence of length DEFAULT_QUEUE_SIZE + 1 = 129,
pushing all of it onto a freshly initialised queue completes and leaves q_is_full false,
q_len equal to 129 and the capacity equal to 2 * DEFAULT_QUEUE_SIZE, and 129 subsequent
q_pop calls return the bytes in their original order. -/
theorem C4_growth (q0 : Q) (g : Nat → Byte) (ps : List (Byte × (Nat → Byte)))
    (as : List Alloc) (hn : ps.length = DEFAULT_QUEUE_SIZE + 1) (ha : as.length = 129) :
    ∃ q1 q2, run (q_init q0 (some g)) (ps.map pushOp) = some (q1, []) ∧
      q_is_full q1 = false ∧ q_len q1 = 129 ∧ q1.size = 2 * DEFAULT_QUEUE_SIZE ∧
      run q1 (as.map Op.pop) = some (q2, ps.map Prod.fst) := by
  have hn1 : ps.length = 129 := hn
  obtain ⟨q1, h1, h2, -, h4⟩ := run_pushes_init q0 g ps (by omega)
  have hlen : q1.len = 129 := by rw [h2.2.1]; simpa using hn1
  have hsz : q1.size = 256 :=
    capOk_between h2.1 (by omega) (by omega) (hlen ▸ h2.2.2.1) (hlen ▸ h4)
  obtain ⟨q2, h5, -⟩ := run_pops (ps.map Prod.fst) as (Or.inl h2) (by simpa [hn1] using ha)
  exact ⟨q1, q2, h1, by simp [q_is_full, hlen, hsz], hlen, hsz, h5⟩

set_option maxRecDepth 100000 in
/-- C4 at a concrete input: the bytes 0 .. 128. -/
theorem C4_growth_witness :
    (((countBytes 129).map fun b => (b, zeros)).length = DEFAULT_QUEUE_SIZE + 1 ∧
      (List.replicate 129 (none : Alloc)).length = 129) ∧
    ∃ q1 q2, run (q_init junkQ (some zeros))
        (((countBytes 129).map fun b => (b, zeros)).map pushOp) = some (q1, []) ∧
      q_is_full q1 = false ∧ q_len q1 = 129 ∧ q1.size = 2 * DEFAULT_QUEUE_SIZE ∧
      run q1 ((List.replicate 129 (none : Alloc)).map Op.pop) =
        some (q2, ((countBytes 129).map fun b => (b, zeros)).map Prod.fst) :=
  ⟨⟨by decide, by decide⟩,
    C4_growth junkQ zeros ((countBytes 129).map fun b => (b, zeros))
      (List.replicate 129 none) (by decide) (by decide)⟩

/-- C5 (shrink correctness): from every state reached from q_init by q_push and q_pop calls
(q_pop only on a non-empty queue) whose size exceeds DEFAULT_QUEUE_SIZE, calling q_pop until
the queue is empty, that is q_len times, completes and leaves size equal to
DEFAULT_QUEUE_SIZE, q_is_empty true and q_remaining_capacity equal to DEFAULT_QUEUE_SIZE.
In particular pushing the bytes 0 .. 199 onto a fresh queue gives is_full false, length 200
and capacity 256, and 200 pops then return 0 .. 199 and end with capacity 128 and an empty
queue. -/
theorem C5_shrink (q0 q : Q) (g : Nat → Byte) (ops : List Op) (outs : List Byte)
    (as : List Alloc) (fresh : Byte → Nat → Byte) (as2 : List Alloc)
    (hd : deleteFree ops = true) (hg : popsGuarded 0 ops = true)
    (hr : run (q_init q0 (some g)) ops = some (q, outs))
    (_hbig : DEFAULT_QUEUE_SIZE < q.size) (ha : as.length = q_len q)
    (ha2 : as2.length = 200) :
    (∃ q1 outs1, run q (as.map Op.pop) = some (q1, outs1) ∧ outs1.length = q_len q ∧
      q1.size = DEFAULT_QUEUE_SIZE ∧ q_is_empty q1 = true ∧
      q_remaining_capacity q1 = DEFAULT_QUEUE_SIZE) ∧
    (∃ q1 q2, run (q_init q0 (some g)) (((countBytes 200).map fun b => (b, fresh b)).map pushOp)
        = some (q1, []) ∧
      q_is_full q1 = false ∧ q_len q1 = 200 ∧ q1.size = 256 ∧
      run q1 (as2.map Op.pop) = some (q2, countBytes 200) ∧
      q2.size = 128 ∧ q_is_empty q2 = true) := by
  constructor
  · obtain ⟨l, hi, -, h2⟩ := reach_inv hg hr
    obtain ⟨hgn, -⟩ := h2 (deleteFree_mem hd)
    have hlen := inv_len hi
    obtain ⟨q1, h3, h4, h5⟩ := run_pops l as hi (by rw [ha, q_len, hlen])
    obtain ⟨h6, h7, h8⟩ := drained_size h4 (h5 hgn)
    exact ⟨q1, l, h3, by rw [q_len, hlen], h6, h7, h8⟩
  · have hcl : (countBytes 200).length = 200 := by simp [countBytes]
    have hfst : ((countBytes 200).map fun b => (b, fresh b)).map Prod.fst = countBytes 200 := by
      rw [List.map_map]
      exact List.map_id _
    obtain ⟨q1, h1, h2, -, h4⟩ := run_pushes_init q0 g
      ((countBytes 200).map fun b => (b, fresh b)) (by rw [List.length_map, hcl]; omega)
    rw [hfst] at h2
    have hlen : q1.len = 200 := by rw [h2.2.1, hcl]
    have hsz : q1.size = 256 :=
      capOk_between h2.1 (by omega) (by omega) (hlen ▸ h2.2.2.1) (hlen ▸ h4)
    obtain ⟨q2, h5, h6, h7⟩ := run_pops (countBytes 200) as2 (Or.inl h2) (by rw [ha2, hcl])
    obtain ⟨h8, h9, -⟩ := drained_size h6 (h7 (fun _ => by omega))
    exact ⟨q1, q2, h1, by simp [q_is_full, hlen, hsz], hlen, hsz, h5, h8, h9⟩

set_option maxRecDepth 100000 in
/-- C5 at a concrete input: the state grown200 reached by pushing the bytes 0 .. 199. -/
theorem C5_shrink_witness :
    (deleteFree (pushAll (countBytes 200)) = true ∧
      popsGuarded 0 (pushAll (countBytes 200)) = true ∧
      run (q_init junkQ (some zeros)) (pushAll (countBytes 200)) = some (grown200, []) ∧
      DEFAULT_QUEUE_SIZE < grown200.size ∧
      (List.replicate 200 (none : Alloc)).length = q_len grown200 ∧
      (List.replicate 200 (some zeros : Alloc)).length = 200) ∧
    ((∃ q1 outs1, run grown200 ((List.replicate 200 (none : Alloc)).map Op.pop) =
        some (q1, outs1) ∧ outs1.length = q_len grown200 ∧
      q1.size = DEFAULT_QUEUE_SIZE ∧ q_is_empty q1 = true ∧
      q_remaining_capacity q1 = DEFAULT_QUEUE_SIZE) ∧
    (∃ q1 q2, run (q_init junkQ (some zeros))
        (((countBytes 200).map fun b => (b, (fun _ => zeros) b)).map pushOp) = some (q1, []) ∧
      q_is_full q1 = false ∧ q_len q1 = 200 ∧ q1.size = 256 ∧
      run q1 ((List.replicate 200 (some zeros : Alloc)).map Op.pop) =
        some (q2, countBytes 200) ∧
      q2.size = 128 ∧ q_is_empty q2 = true)) :=
  ⟨⟨by decide, by decide, by decide, by decide, by decide, by decide⟩,
    C5_shrink junkQ grown200 zeros (pushAll (countBytes 200)) [] (List.replicate 200 none)
      (fun _ => zeros) (List.replicate 200 (some zeros)) (by decide) (by decide) (by decide)
      (by decide) (by decide) (by decide)⟩

set_option maxRecDepth 100000 in
/-- C6 as stated fails: q_pop immediately after q_init reports no error. It returns the
indeterminate byte at storage[0] (here 0) and changes the state: q_len becomes 65535 and
q_is_empty false. -/
theorem C6_counterexample :
    (q_pop (q_init junkQ (some zeros)) none).map
      (fun r => (r.1, r.2.head, q_len r.2, q_is_empty r.2)) = some (0, 1, 65535, false) := by
  decide

/-- C6 (q_pop on an empty queue, as the code behaves): q_pop makes no emptiness check and
reports no error. On an empty queue whose head indexes the storage, as immediately after
q_init, it returns the byte stored at storage[head], advances head to (head + 1) mod size
and decrements len modulo 2^16, so that afterwards q_len is 65535 and q_is_empty is
false. -/
theorem C6_empty_pop (q : Q) (blk : List Byte) (b : Byte) (a : Alloc) (hl : q.len = 0)
    (he : q.elements = some blk) (hb : blk[q.head]? = some b) (hs : q.size ≠ 0) :
    ∃ q1, q_pop q a = some (b, q1) ∧ q1.head = (q.head + 1) % q.size ∧ q_len q1 = 65535 ∧
      q_is_empty q1 = false := by
  refine ⟨_, q_pop_eq a he hb hs, ?_⟩
  rw [hl, if_neg (fun h => absurd h.1 (by decide))]
  exact ⟨rfl, rfl, rfl⟩

set_option maxRecDepth 100000 in
/-- C6 at a concrete input: the freshly initialised queue. -/
theorem C6_empty_pop_witness :
    ((q_init junkQ (some zeros)).len = 0 ∧
      (q_init junkQ (some zeros)).elements = some (List.replicate 128 0) ∧
      (List.replicate 128 (0 : Byte))[(q_init junkQ (some zeros)).head]? = some 0 ∧
      (q_init junkQ (some zeros)).size ≠ 0) ∧
    ∃ q1, q_pop (q_init junkQ (some zeros)) none = some (0, q1) ∧
      q1.head = ((q_init junkQ (some zeros)).head + 1) % (q_init junkQ (some zeros)).size ∧
      q_len q1 = 65535 ∧ q_is_empty q1 = false :=
  ⟨⟨by decide, by decide, by decide, by decide⟩,
    C6_empty_pop (q_init junkQ (some zeros)) (List.replicate 128 0) 0 none (by decide)
      (by decide) (by decide) (by decide)⟩

theorem peek_index_eq_mod {q : Q} (hc : CapOk q.size) (i : Nat) :
    q_peek_index q i = (q.head + i) % q.size := by
  obtain ⟨m, hm⟩ := capOk_pow hc
  have hpos := capOk_pos hc
  have hs : q.size ≠ 0 := by omega
  simp only [q_peek_index, hs, if_false]
  rw [hm, Nat.and_pow_two_sub_one_eq_mod]

/-- C7 (peek indexing): in every state reached from q_init by q_push, q_pop (only on a
non-empty queue) and q_delete, the masked index (head + i) & (size - 1) of q_peek equals
(head + i) mod size for every i, and for every index < len the call q_peek(index) returns
the byte stored at storage[(head + index) mod size]. -/
theorem C7_peek_index (q0 q : Q) (g : Nat → Byte) (ops : List Op) (outs : List Byte)
    (index : Nat) (hg : popsGuarded 0 ops = true)
    (hr : run (q_init q0 (some g)) ops = some (q, outs)) (hi : index < q.len) :
    (∀ i, q_peek_index q i = (q.head + i) % q.size) ∧
    ∃ blk b, q.elements = some blk ∧ blk[(q.head + index) % q.size]? = some b ∧
      q_peek q index = some b := by
  obtain ⟨l, hinv, -, -⟩ := reach_inv hg hr
  have hc := inv_capOk hinv
  refine ⟨peek_index_eq_mod hc, ?_⟩
  have hlen := inv_len hinv
  rcases hinv with hgood | ⟨rfl, -⟩
  · obtain ⟨-, -, -, -, -, blk, he, -, hcont⟩ := hgood
    have hil : index < l.length := by omega
    have hb := hcont index hil
    rw [List.getElem?_eq_getElem hil] at hb
    refine ⟨blk, l[index], he, hb, ?_⟩
    simp only [q_peek, he, peek_index_eq_mod hc, hb]
  · simp at hlen; omega

set_option maxRecDepth 100000 in
/-- C7 at a concrete input: push 1, push 2, pop, then q_peek(0). -/
theorem C7_peek_index_witness :
    (popsGuarded 0 [Op.push 1 none, Op.push 2 none, Op.pop none] = true ∧
      run (q_init junkQ (some zeros)) [Op.push 1 none, Op.push 2 none, Op.pop none] =
        some (afterTwoPushesOnePop, [1]) ∧
      0 < afterTwoPushesOnePop.len) ∧
    ((∀ i, q_peek_index afterTwoPushesOnePop i =
        (afterTwoPushesOnePop.head + i) % afterTwoPushesOnePop.size) ∧
    ∃ blk b, afterTwoPushesOnePop.elements = some blk ∧
      blk[(afterTwoPushesOnePop.head + 0) % afterTwoPushesOnePop.size]? = some b ∧
      q_peek afterTwoPushesOnePop 0 = some b) :=
  ⟨⟨by decide, by decide, by decide⟩,
    C7_peek_index junkQ afterTwoPushesOnePop zeros
      [Op.push 1 none, Op.push 2 none, Op.pop none] [1] 0 (by decide) (by decide) (by decide)⟩

/-- C8 (capacity shape): in every state reached from q_init by q_push, q_pop (only on a
non-empty queue) and q_delete, whatever the allocator answers after q_init, size is a
power of two, a multiple of DEFAULT_QUEUE_SIZE and at least DEFAULT_QUEUE_SIZE. -/
theorem C8_capacity_shape (q0 q : Q) (g : Nat → Byte) (ops : List Op) (outs : List Byte)
    (hg : popsGuarded 0 ops = true) (hr : run (q_init q0 (some g)) ops = some (q, outs)) :
    (∃ m, q.size = 2 ^ m) ∧ DEFAULT_QUEUE_SIZE ∣ q.size ∧ DEFAULT_QUEUE_SIZE ≤ q.size := by
  obtain ⟨l, hinv, -, -⟩ := reach_inv hg hr
  have hc := inv_capOk hinv
  refine ⟨capOk_pow hc, ?_, capOk_pos hc⟩
  obtain ⟨k, -, hk⟩ := hc
  exact ⟨2 ^ k, hk⟩

set_option maxRecDepth 100000 in
/-- C8 at a concrete input: push 1, then q_delete. -/
theorem C8_capacity_shape_witness :
    (popsGuarded 0 [Op.push 1 none, Op.delete (some zeros)] = true ∧
      run (q_init junkQ (some zeros)) [Op.push 1 none, Op.delete (some zeros)] =
        some (freshZeros, [])) ∧
    ((∃ m, freshZeros.size = 2 ^ m) ∧ DEFAULT_QUEUE_SIZE ∣ freshZeros.size ∧
      DEFAULT_QUEUE_SIZE ≤ freshZeros.size) :=
  ⟨⟨by decide, by decide⟩,
    C8_capacity_shape junkQ freshZeros zeros [Op.push 1 none, Op.delete (some zeros)] []
      (by decide) (by decide)⟩

/-- C9 (init postcondition): after q_init with a successful allocation, whatever the
struct held before, head = tail = len = 0, size = DEFAULT_QUEUE_SIZE = 128 and elements
points to a block of 128 bytes, so q_len returns 0, q_is_empty is true, q_is_full is false
and q_remaining_capacity returns DEFAULT_QUEUE_SIZE. -/
theorem C9_init_post (q0 : Q) (g : Nat → Byte) :
    (q_init q0 (some g)).head = 0 ∧ (q_init q0 (some g)).tail = 0 ∧
    (q_init q0 (some g)).len = 0 ∧ (q_init q0 (some g)).size = DEFAULT_QUEUE_SIZE ∧
    DEFAULT_QUEUE_SIZE = 128 ∧
    (∃ blk, (q_init q0 (some g)).elements = some blk ∧ blk.length = 128) ∧
    q_len (q_init q0 (some g)) = 0 ∧ q_is_empty (q_init q0 (some g)) = true ∧
    q_is_full (q_init q0 (some g)) = false ∧
    q_remaining_capacity (q_init q0 (some g)) = DEFAULT_QUEUE_SIZE := by
  have hs : (q_init q0 (some g)).size = 128 := rfl
  have hl : (q_init q0 (some g)).len = 0 := rfl
  refine ⟨rfl, rfl, rfl, rfl, rfl,
    ⟨(List.range 128).map g, rfl, by rw [List.length_map, List.length_range]⟩, hl, ?_, ?_, ?_⟩
  · simp only [q_is_empty, hl, beq_self_eq_true]
  · simp only [q_is_full, hl, hs]
    decide
  · simp only [q_remaining_capacity, hl, hs]
    decide

/-- C10 as stated fails: q_init with a failed allocation on a struct whose size field held
55 leaves size at 55, so q_remaining_capacity reports 55 and q_is_full is false although
there is no storage. -/
theorem C10_counterexample :
    (q_init junkQ none).size = 55 ∧ (q_init junkQ none).elements = none ∧
    q_remaining_capacity (q_init junkQ none) = 55 ∧ q_is_full (q_init junkQ none) = false := by
  decide

/-- C10 (init failure, as the code behaves): when the allocation in q_init fails, q_init
sets head = tail = len = 0 and elements = NULL and does not write the size field, which
keeps its prior value: the capacity is 0 exactly when the size field was 0 before the call,
and q_remaining_capacity reports the prior size. The same holds for q_delete. -/
theorem C10_init_failure (q : Q) :
    (q_init q none).head = 0 ∧ (q_init q none).tail = 0 ∧ (q_init q none).len = 0 ∧
    (q_init q none).elements = none ∧ (q_init q none).size = q.size ∧
    ((q_init q none).size = 0 ↔ q.size = 0) ∧
    q_remaining_capacity (q_init q none) = q.size % 65536 ∧
    (q_delete q none).size = q.size := by
  refine ⟨rfl, rfl, rfl, rfl, rfl, Iff.rfl, ?_, rfl⟩
  show (q.size + 65536 - 0) % 65536 = q.size % 65536
  omega

/-- C11 (delete is a full reset): for every queue state, q_delete with a successful
allocation gives exactly the state of a fresh q_init, whatever struct that q_init starts
from: head = tail = len = 0, size = DEFAULT_QUEUE_SIZE, a fresh block of 128 bytes in which
nothing of the old storage is left, and the same answers of q_len, q_is_empty, q_is_full and
q_remaining_capacity. Consequently q_delete is idempotent, and q_push(b) followed by q_pop
after q_delete returns b. -/
theorem C11_delete_reset (q q0 : Q) (g g2 : Nat → Byte) (b : Byte) (a a2 : Alloc) :
    q_delete q (some g) = q_init q0 (some g) ∧
    q_delete q (some g) = Q.mk 0 0 0 (some ((List.range 128).map g)) DEFAULT_QUEUE_SIZE ∧
    q_len (q_delete q (some g)) = 0 ∧ q_is_empty (q_delete q (some g)) = true ∧
    q_is_full (q_delete q (some g)) = false ∧
    q_remaining_capacity (q_delete q (some g)) = DEFAULT_QUEUE_SIZE ∧
    q_delete (q_delete q (some g)) (some g) = q_delete q (some g) ∧
    q_delete (q_delete q (some g)) (some g2) = q_delete q (some g2) ∧
    ∃ q1 q2, q_push (q_delete q (some g)) b a = some q1 ∧ q_pop q1 a2 = some (b, q2) ∧
      q_is_empty q2 = true := by
  have h0 : ∀ (q : Q) (g : Nat → Byte),
      q_delete q (some g) = Q.mk 0 0 0 (some ((List.range 128).map g)) 128 := fun _ _ => rfl
  have hgood : Good (q_delete q (some g)) [] := q_init_good q g
  refine ⟨rfl, h0 q g, rfl, ?_, ?_, ?_, rfl, rfl, ?_⟩
  · rw [h0]; rfl
  · rw [h0]; simp only [q_is_full]; decide
  · rw [h0]; simp only [q_remaining_capacity]; decide
  · obtain ⟨q1, h1, h2, -⟩ := q_push_room b a hgood (show 0 < 128 by decide)
    obtain ⟨q2, h3, h4, -⟩ := q_pop_good a2 (l := []) (by simpa using h2)
    refine ⟨q1, q2, h1, h3, ?_⟩
    have := inv_len h4
    simp only [q_is_empty, this]
    rfl

set_option maxRecDepth 100000 in
/-- C12 fails on the code: growDrain (129 pushes, then 129 pops, none on an empty queue)
ends in a state with head = tail = 129 and size = 128, so neither head < size nor
tail < size holds, and the next q_push writes elements[129] outside of the 128-byte
storage (undefined behaviour). -/
theorem C12_index_beyond_size_after_shrink :
    deleteFree growDrain = true ∧ popsGuarded 0 growDrain = true ∧
    (run (q_init junkQ (some zeros)) growDrain).map
      (fun r => (r.1.head, r.1.tail, r.1.size, r.1.elements.map List.length)) =
      some (129, 129, 128, some 128) ∧
    (run (q_init junkQ (some zeros)) growDrain).map
      (fun r => decide (r.1.head < r.1.size) || decide (r.1.tail < r.1.size)) = some false ∧
    run (q_init junkQ (some zeros)) (growDrain ++ [Op.push 7 (some zeros)]) = none := by
  decide

set_option maxRecDepth 100000 in
/-- C13 fails on the code: after 129 pushes and 128 pops the queue holds one byte with
head = 128, tail = 129 and size = 256; the q_pop that empties it returns the byte 128 and
sets size to DEFAULT_QUEUE_SIZE, but leaves head = tail = 129 instead of head = tail = 0. -/
theorem C13_shrink_keeps_indices :
    (run (q_init junkQ (some zeros)) (pushAll (countBytes 129) ++ popTimes 128)).map
      (fun r => (r.1.head, r.1.tail, r.1.len, r.1.size)) = some (128, 129, 1, 256) ∧
    ((run (q_init junkQ (some zeros)) (pushAll (countBytes 129) ++ popTimes 128)).bind
      (fun r => q_pop r.1 (some zeros))).map
      (fun r => (r.1, r.2.head, r.2.tail, r.2.len, r.2.size, q_is_empty r.2)) =
      some (128, 129, 129, 0, 128, true) := by
  decide

set_option maxRecDepth 100000 in
/-- C14 as stated fails: after 128 pushes onto a freshly initialised queue the queue is
full with head = tail = 0 and len = size = 128, so (tail - head) mod size is 0 and not
len. -/
theorem C14_counterexample :
    (run (q_init junkQ (some zeros)) (pushAll (countBytes 128))).map
      (fun r => (r.1.head, r.1.tail, r.1.len, r.1.size, ringDistance r.1)) =
      some (0, 0, 128, 128, 0) := by
  decide

theorem ringDistance_good {q : Q} (hs : q.tail = (q.head + q.len) % q.size) :
    ringDistance q = ((q.len % q.size : Nat) : Int) := by
  simp only [ringDistance, hs]
  push_cast
  rw [Int.sub_emod, Int.emod_emod_of_dvd _ (dvd_refl _), ← Int.sub_emod, add_sub_cancel_left]

/-- C14 (head, tail and length): in every state reached from q_init by q_push, q_pop (only
on a non-empty queue) and q_delete, (tail - head) mod size equals len mod size. It is len
itself whenever the queue is not full; a full queue has len = size and tail = head. -/
theorem C14_ring_distance (q0 q : Q) (g : Nat → Byte) (ops : List Op) (outs : List Byte)
    (hg : popsGuarded 0 ops = true) (hr : run (q_init q0 (some g)) ops = some (q, outs)) :
    ringDistance q = ((q.len % q.size : Nat) : Int) ∧
    (q.len < q.size → ringDistance q = (q.len : Int)) ∧
    (q.len = q.size → q.tail = q.head) := by
  obtain ⟨l, hinv, -, -⟩ := reach_inv hg hr
  have key : ringDistance q = ((q.len % q.size : Nat) : Int) ∧
      (q.len = q.size → q.tail = q.head) := by
    rcases hinv with hgood | ⟨-, hst⟩
    · obtain ⟨hc, -, -, hh, ht, -⟩ := hgood
      refine ⟨ringDistance_good ht, fun hf => ?_⟩
      have hpos := capOk_pos hc
      rw [ht, hf, Nat.add_mod_right, Nat.mod_eq_of_lt hh]
    · obtain ⟨-, hl, hht, -⟩ := hst
      refine ⟨?_, fun _ => hht.symm⟩
      simp [ringDistance, hl, hht]
  refine ⟨key.1, fun hlt => ?_, key.2⟩
  rw [key.1, Nat.mod_eq_of_lt hlt]

set_option maxRecDepth 100000 in
/-- C14 at a concrete input: push 1, push 2, pop. -/
theorem C14_ring_distance_witness :
    (popsGuarded 0 [Op.push 1 none, Op.push 2 none, Op.pop none] = true ∧
      run (q_init junkQ (some zeros)) [Op.push 1 none, Op.push 2 none, Op.pop none] =
        some (afterTwoPushesOnePop, [1])) ∧
    (ringDistance afterTwoPushesOnePop =
        ((afterTwoPushesOnePop.len % afterTwoPushesOnePop.size : Nat) : Int) ∧
      (afterTwoPushesOnePop.len < afterTwoPushesOnePop.size →
        ringDistance afterTwoPushesOnePop = (afterTwoPushesOnePop.len : Int)) ∧
      (afterTwoPushesOnePop.len = afterTwoPushesOnePop.size →
        afterTwoPushesOnePop.tail = afterTwoPushesOnePop.head)) :=
  ⟨⟨by decide, by decide⟩,
    C14_ring_distance junkQ afterTwoPushesOnePop zeros
      [Op.push 1 none, Op.push 2 none, Op.pop none] [1] (by decide) (by decide)⟩

theorem good_fullMax : Good fullMax (List.replicate 32768 0) := by
  refine ⟨⟨8, Nat.le_refl _, by decide⟩, ?_, Nat.le_refl _, show 0 < 32768 by decide,
    show 0 = (0 + 32768) % 32768 by decide, List.replicate 32768 0, rfl, ?_, ?_⟩
  · show 32768 = (List.replicate 32768 (0 : Byte)).length
    rw [List.length_replicate]
  · show (List.replicate 32768 (0 : Byte)).length = 32768
    rw [List.length_replicate]
  · intro i hi
    rw [List.length_replicate] at hi
    show (List.replicate 32768 (0 : Byte))[(0 + i) % 32768]? = _
    rw [Nat.zero_add, Nat.mod_eq_of_lt hi]

/-- C15 as stated fails: fullMax is a full queue (len = size = 32768, head = 0 < size) and
q_resize with a successful allocation leaves the size field at 0, not at 2 * 32768, because
65536 does not fit the uint16_t field. -/
theorem C15_counterexample :
    q_is_full fullMax = true ∧ decide (fullMax.head < fullMax.size) = true ∧
    (q_resize fullMax (some zeros)).map (fun q => (q.head, q.tail, q.len, q.size)) =
      some (0, 32768, 32768, 0) := by
  obtain ⟨blk, h, -⟩ := q_resize_good zeros good_fullMax
  refine ⟨by decide, by decide, ?_⟩
  rw [h]
  rfl

/-- C15 (grow postcondition, with the 16-bit store): for every full queue state
(len == size, head < size, storage of size bytes) with a successful allocation, q_resize
produces a state with head = 0, tail = len, len unchanged, new storage of 2 * (old size)
bytes with new storage[i] = old storage[(old head + i) mod old size] for every i < len (the
bytes beyond stay as allocated), and size = (2 * old size) mod 65536, which is 2 * (old size)
whenever old size < 32768. -/
theorem C15_grow_post (q : Q) (old : List Byte) (g : Nat → Byte) (_hf : q.len = q.size)
    (hh : q.head < q.size) (he : q.elements = some old) (hl : old.length = q.size) :
    ∃ blk, q_resize q (some g) =
        some (Q.mk 0 q.len q.len (some blk) ((2 * q.size) % 65536)) ∧
      blk.length = 2 * q.size ∧
      (∀ i, i < q.len → blk[i]? = old[(q.head + i) % q.size]?) ∧
      (∀ i, q.len ≤ i → i < 2 * q.size → blk[i]? = some (g i)) ∧
      (q.size < 32768 → (2 * q.size) % 65536 = 2 * q.size) := by
  have hs : q.size ≠ 0 := by omega
  obtain ⟨res, hres, hrl, -, hmid, hhigh⟩ :=
    q_resize_loop_spec q old hs he hl q.len 0 ((List.range (q.size * 2)).map g)
      (by rw [List.length_map, List.length_range]; omega)
  rw [List.length_map, List.length_range] at hrl
  refine ⟨res, ?_, by omega, fun i hi => hmid i (Nat.zero_le _) (by omega), ?_,
    fun h => Nat.mod_eq_of_lt (by omega)⟩
  · simp only [q_resize, malloc, Option.map_some', hres]
    rw [Nat.mul_comm]
  · intro i h1 h2
    rw [hhigh i (by omega), List.getElem?_map, List.getElem?_range (by omega)]
    rfl

/-- C15 at a concrete input: the wrapped full queue wrappedFull4 is re-linearised to
12, 13, 10, 11. -/
theorem C15_grow_post_witness :
    (wrappedFull4.len = wrappedFull4.size ∧ wrappedFull4.head < wrappedFull4.size ∧
      wrappedFull4.elements = some [10, 11, 12, 13] ∧
      [(10 : Byte), 11, 12, 13].length = wrappedFull4.size) ∧
    ∃ blk, q_resize wrappedFull4 (some zeros) =
        some (Q.mk 0 wrappedFull4.len wrappedFull4.len (some blk)
          ((2 * wrappedFull4.size) % 65536)) ∧
      blk.length = 2 * wrappedFull4.size ∧
      (∀ i, i < wrappedFull4.len →
        blk[i]? = [(10 : Byte), 11, 12, 13][(wrappedFull4.head + i) % wrappedFull4.size]?) ∧
      (∀ i, wrappedFull4.len ≤ i → i < 2 * wrappedFull4.size → blk[i]? = some (zeros i)) ∧
      (wrappedFull4.size < 32768 → (2 * wrappedFull4.size) % 65536 = 2 * wrappedFull4.size) :=
  ⟨⟨by decide, by decide, by decide, by decide⟩,
    C15_grow_post wrappedFull4 [10, 11, 12, 13] zeros (by decide) (by decide) (by decide)
      (by decide)⟩

theorem q_push_eq_pushStore (q : Q) (e : Byte) (a : Alloc) :
    q_push q e a =
      (if q_is_full q then q_resize q a else some q).bind (fun q1 => pushStore q1 e) := by
  unfold q_push pushStore
  cases (if q_is_full q then q_resize q a else some q) <;> rfl

/-- C16 (push step and frame): for every state with len < size and tail < size, whose
storage has size bytes, q_push(e) stores e at storage[tail], sets tail to
(tail + 1) mod size and len to len + 1, and leaves head, size and every other storage slot
unchanged, without growth. In general q_push is the store step pushStore, applied to the
state itself when len differs from size and to the result of q_resize when len == size; the
store step writes e at tail, advances tail modulo size and increments len (as a
uint16_t). -/
theorem C16_push_step (q : Q) (blk : List Byte) (e : Byte) (a : Alloc)
    (hl : q.len < q.size) (ht : q.tail < q.size) (he : q.elements = some blk)
    (hb : blk.length = q.size) (h16 : q.size < 65536) :
    q_push q e a = some (Q.mk q.head ((q.tail + 1) % q.size) (q.len + 1)
      (some (blk.set q.tail e)) q.size) ∧
    (blk.set q.tail e)[q.tail]? = some e ∧
    (∀ j, j ≠ q.tail → (blk.set q.tail e)[j]? = blk[j]?) ∧
    (blk.set q.tail e).length = blk.length ∧
    (∀ (qf : Q) (af : Alloc), qf.len = qf.size →
      q_push qf e af = (q_resize qf af).bind (fun q1 => pushStore q1 e)) ∧
    (∀ (qn : Q) (an : Alloc), qn.len ≠ qn.size → q_push qn e an = pushStore qn e) ∧
    (∀ (q1 : Q) (b1 : List Byte), q1.elements = some b1 → q1.tail < b1.length →
      q1.size ≠ 0 →
      pushStore q1 e = some (Q.mk q1.head ((q1.tail + 1) % q1.size) ((q1.len + 1) % 65536)
        (some (b1.set q1.tail e)) q1.size)) := by
  have htl : q.tail < blk.length := by omega
  have hnf : q_is_full q = false := by simp [q_is_full]; omega
  refine ⟨?_, List.getElem?_set_self htl, fun j hj => List.getElem?_set_ne (Ne.symm hj),
    List.length_set _ _ _, ?_, ?_, ?_⟩
  · rw [q_push_store e a hnf he htl (by omega),
      Nat.mod_eq_of_lt (show q.len + 1 < 65536 by omega)]
  · intro qf af hf
    have : q_is_full qf = true := by simp [q_is_full, hf]
    rw [q_push_eq_pushStore, this]
    rfl
  · intro qn an hn
    have : q_is_full qn = false := by simp [q_is_full, hn]
    rw [q_push_eq_pushStore, this]
    rfl
  · intro q1 b1 h1 h2 h3
    simp [pushStore, h1, h2, h3]

set_option maxRecDepth 100000 in
/-- C16 at a concrete input: q_push(5) on the freshly initialised queue. -/
theorem C16_push_step_witness :
    (freshZeros.len < freshZeros.size ∧ freshZeros.tail < freshZeros.size ∧
      freshZeros.elements = some (List.replicate 128 0) ∧
      (List.replicate 128 (0 : Byte)).length = freshZeros.size ∧ freshZeros.size < 65536) ∧
    (q_push freshZeros 5 none = some (Q.mk freshZeros.head
        ((freshZeros.tail + 1) % freshZeros.size) (freshZeros.len + 1)
        (some ((List.replicate 128 (0 : Byte)).set freshZeros.tail 5)) freshZeros.size) ∧
    ((List.replicate 128 (0 : Byte)).set freshZeros.tail 5)[freshZeros.tail]? = some 5 ∧
    (∀ j, j ≠ freshZeros.tail →
      ((List.replicate 128 (0 : Byte)).set freshZeros.tail 5)[j]? =
        (List.replicate 128 (0 : Byte))[j]?) ∧
    ((List.replicate 128 (0 : Byte)).set freshZeros.tail 5).length =
      (List.replicate 128 (0 : Byte)).length ∧
    (∀ (qf : Q) (af : Alloc), qf.len = qf.size →
      q_push qf 5 af = (q_resize qf af).bind (fun q1 => pushStore q1 5)) ∧
    (∀ (qn : Q) (an : Alloc), qn.len ≠ qn.size → q_push qn 5 an = pushStore qn 5) ∧
    (∀ (q1 : Q) (b1 : List Byte), q1.elements = some b1 → q1.tail < b1.length →
      q1.size ≠ 0 →
      pushStore q1 5 = some (Q.mk q1.head ((q1.tail + 1) % q1.size) ((q1.len + 1) % 65536)
        (some (b1.set q1.tail 5)) q1.size))) :=
  ⟨⟨by decide, by decide, by decide, by decide, by decide⟩,
    C16_push_step freshZeros (List.replicate 128 0) 5 none (by decide) (by decide)
      (by decide) (by decide) (by decide)⟩

theorem realloc_keeps (blk : List Byte) (n : Nat) (g : Nat → Byte) (hn : n ≤ blk.length) :
    ∃ nb, realloc (some blk) n (some g) = some nb ∧ nb.length = n ∧
      ∀ i, i < n → nb[i]? = blk[i]? := by
  refine ⟨_, rfl, by rw [List.length_map, List.length_range], fun i hi => ?_⟩
  have hib : i < blk.length := by omega
  rw [List.getElem?_map, List.getElem?_range hi]
  simp only [Option.map_some', Option.getD_some, List.getD_eq_getElem?_getD,
    List.getElem?_eq_getElem hib, Option.getD_some]

set_option maxRecDepth 100000 in
/-- C17 as stated fails: after 129 pushes and 128 pops the queue holds one byte, with
len = 1 > 0, head = 128 < size = 256 and a storage of 256 bytes. The q_pop that empties it
does not leave the storage unchanged: it reallocates it, to a block of 128 bytes when the
reallocation succeeds and to NULL when it fails. -/
theorem C17_counterexample :
    (run (q_init junkQ (some zeros)) growDrainButOne).map
      (fun r => (r.1.len, r.1.head, r.1.size, r.1.elements.map List.length)) =
      some (1, 128, 256, some 256) ∧
    ((run (q_init junkQ (some zeros)) growDrainButOne).bind
      (fun r => (q_pop r.1 (some zeros)).map
        (fun p => (p.2.elements.map List.length, decide (p.2.elements = r.1.elements))))) =
      some (some 128, false) ∧
    ((run (q_init junkQ (some zeros)) growDrainButOne).bind
      (fun r => (q_pop r.1 none).map (fun p => p.2.elements))) = some none := by
  decide

/-- C17 (pop step and frame, with the reallocation of the shrink): for every state with
len > 0 and head < size, whose storage has size bytes, q_pop returns storage[head], sets
head to (head + 1) mod size and len to len - 1 and leaves tail unchanged. Unless the queue
became empty with size > DEFAULT_QUEUE_SIZE, size and the storage are unchanged; in that
case size becomes DEFAULT_QUEUE_SIZE and the storage is replaced by the result of realloc:
on success a block of DEFAULT_QUEUE_SIZE bytes holding the unchanged first
DEFAULT_QUEUE_SIZE bytes of the old storage, on failure NULL. -/
theorem C17_pop_step (q : Q) (blk : List Byte) (a : Alloc) (hl : 0 < q.len)
    (hh : q.head < q.size) (he : q.elements = some blk) (hb : blk.length = q.size)
    (h16 : q.len < 65536) :
    ∃ b q1, q_pop q a = some (b, q1) ∧ blk[q.head]? = some b ∧
      q1.head = (q.head + 1) % q.size ∧ q1.len = q.len - 1 ∧ q1.tail = q.tail ∧
      (¬ (q.len = 1 ∧ DEFAULT_QUEUE_SIZE < q.size) →
        q1.size = q.size ∧ q1.elements = some blk) ∧
      ((q.len = 1 ∧ DEFAULT_QUEUE_SIZE < q.size) →
        q1.size = DEFAULT_QUEUE_SIZE ∧
        q1.elements = realloc (some blk) DEFAULT_QUEUE_SIZE a ∧
        (a = none → q1.elements = none) ∧
        ∀ g, a = some g → ∃ nb, q1.elements = some nb ∧ nb.length = DEFAULT_QUEUE_SIZE ∧
          ∀ i, i < DEFAULT_QUEUE_SIZE → nb[i]? = blk[i]?) := by
  have hlt : q.head < blk.length := by omega
  have hbq : blk[q.head]? = some blk[q.head] := List.getElem?_eq_getElem hlt
  have hn : (q.len + 65536 - 1) % 65536 = q.len - 1 := by omega
  have hcond : ((q.len + 65536 - 1) % 65536 = 0 ∧ 128 < q.size) ↔
      (q.len = 1 ∧ DEFAULT_QUEUE_SIZE < q.size) := by
    rw [hn]
    constructor
    · rintro ⟨h1, h2⟩; exact ⟨by omega, h2⟩
    · rintro ⟨h1, h2⟩; exact ⟨by omega, h2⟩
  refine ⟨blk[q.head], _, q_pop_eq a he hbq (by omega), hbq, ?_, ?_, ?_, ?_, ?_⟩
  · split <;> rfl
  · split <;> exact hn
  · split <;> rfl
  · intro hns
    rw [if_neg (fun h => hns (hcond.mp h))]
    exact ⟨rfl, rfl⟩
  · intro hsh
    rw [if_pos (hcond.mpr hsh)]
    refine ⟨rfl, rfl, fun hn => by subst hn; rfl, fun g hg => ?_⟩
    subst hg
    have hbig : 128 < q.size := hsh.2
    obtain ⟨nb, h1, h2, h3⟩ := realloc_keeps blk 128 g (by omega)
    exact ⟨nb, h1, h2, h3⟩

set_option maxRecDepth 100000 in
/-- C17 at a concrete input: q_pop on the queue after push 1, push 2, pop. -/
theorem C17_pop_step_witness :
    (0 < afterTwoPushesOnePop.len ∧ afterTwoPushesOnePop.head < afterTwoPushesOnePop.size ∧
      afterTwoPushesOnePop.elements = some (1 :: 2 :: List.replicate 126 0) ∧
      ((1 : Byte) :: 2 :: List.replicate 126 0).length = afterTwoPushesOnePop.size ∧
      afterTwoPushesOnePop.len < 65536) ∧
    ∃ b q1, q_pop afterTwoPushesOnePop (some zeros) = some (b, q1) ∧
      ((1 : Byte) :: 2 :: List.replicate 126 0)[afterTwoPushesOnePop.head]? = some b ∧
      q1.head = (afterTwoPushesOnePop.head + 1) % afterTwoPushesOnePop.size ∧
      q1.len = afterTwoPushesOnePop.len - 1 ∧ q1.tail = afterTwoPushesOnePop.tail ∧
      (¬ (afterTwoPushesOnePop.len = 1 ∧ DEFAULT_QUEUE_SIZE < afterTwoPushesOnePop.size) →
        q1.size = afterTwoPushesOnePop.size ∧
        q1.elements = some (1 :: 2 :: List.replicate 126 0)) ∧
      ((afterTwoPushesOnePop.len = 1 ∧ DEFAULT_QUEUE_SIZE < afterTwoPushesOnePop.size) →
        q1.size = DEFAULT_QUEUE_SIZE ∧
        q1.elements = realloc (some (1 :: 2 :: List.replicate 126 0)) DEFAULT_QUEUE_SIZE
          (some zeros) ∧
        ((some zeros : Alloc) = none → q1.elements = none) ∧
        ∀ g, (some zeros : Alloc) = some g →
          ∃ nb, q1.elements = some nb ∧ nb.length = DEFAULT_QUEUE_SIZE ∧
          ∀ i, i < DEFAULT_QUEUE_SIZE →
            nb[i]? = ((1 : Byte) :: 2 :: List.replicate 126 0)[i]?) :=
  ⟨⟨by decide, by decide, by decide, by decide, by decide⟩,
    C17_pop_step afterTwoPushesOnePop (1 :: 2 :: List.replicate 126 0) (some zeros)
      (by decide)
      (by decide) (by decide) (by decide) (by decide)⟩

set_option maxRecDepth 100000 in
/-- C18 fails on the code: after growDrain (129 pushes, 129 pops) head is 129 and size is
128. The abstract queue answers a following q_push(7), q_pop with 7, but the q_push writes
elements[129] outside of the 128-byte storage (undefined behaviour), and the index q_peek(0)
computes, (129 + 0) & 127 = 1, is not the index head = 129 that q_pop reads: where the
bytes beyond the storage stay accessible (shrunkInPlace), q_peek(0) is the stale byte 1
and the next q_pop returns 7. -/
theorem C18_peek_differs_after_shrink :
    popsGuarded 0 growDrainReuse = true ∧
    (absRun [] growDrainReuse).map (fun r => r.2.drop 129) = some [7] ∧
    (run (q_init junkQ (some zeros)) growDrain).map
      (fun r => (r.1.head, r.1.size, q_peek_index r.1 0)) = some (129, 128, 1) ∧
    run (q_init junkQ (some zeros)) (growDrain ++ [Op.push 7 (some zeros)]) = none ∧
    q_peek shrunkInPlace 0 = some 1 ∧
    (q_pop shrunkInPlace (some zeros)).map Prod.fst = some 7 := by
  decide

theorem q_resize_size {q q1 : Q} {a : Alloc} (h : q_resize q a = some q1) :
    q1.size = (q.size * 2) % 65536 := by
  simp only [q_resize] at h
  split at h
  · cases h
  · cases h; rfl

/-- C19 as stated fails: after 32768 pushes onto a freshly initialised queue len and size
are 32768, the q_resize of the next q_push stores 65536 into the uint16_t size field,
which wraps to 0, and that q_push then computes (tail + 1) % 0: the run has undefined
behaviour. -/
theorem C19_counterexample :
    (run (q_init junkQ (some zeros)) ((List.replicate 32768 ((0 : Byte), zeros)).map pushOp)).bind
      (fun r => (q_resize r.1 (some zeros)).map fun q1 => (r.1.len, r.1.size, q1.size)) =
      some (32768, 32768, 0) ∧
    run (q_init junkQ (some zeros))
      ((List.replicate 32768 ((0 : Byte), zeros)).map pushOp ++ [Op.push 0 (some zeros)]) =
      none := by
  obtain ⟨q1, h1, h2, -⟩ := run_pushes_init junkQ zeros
    (List.replicate 32768 ((0 : Byte), zeros)) (by simp only [List.length_replicate]; omega)
  have hlen : q1.len = 32768 := by
    rw [h2.2.1]; simp only [List.length_map, List.length_replicate]
  have hsz : q1.size = 32768 := by
    have := capOk_le h2.1
    have := h2.2.2.1
    omega
  obtain ⟨blk, h3, -⟩ := q_resize_good zeros h2
  have h4 : q_push q1 0 (some zeros) = none := q_push_max 0 (some zeros) h2 hlen
  constructor
  · rw [h1]
    simp only [Option.some_bind, h3, Option.map_some', hlen, hsz]
  · rw [run_append, h1]
    simp only [run, step, h4, Option.map_none']

/-- C19 (size at the modulo): in every state reached from q_init by q_push, q_pop (only on
a non-empty queue) and q_delete, the size field is non-zero, between 128 and 32768, so the
modulo of q_pop never divides by zero and every q_push that completes leaves a non-zero
size. The doubling of q_resize stored into the uint16_t size field wraps to 0 exactly when
the old size is 32768, and a q_push on a full queue of that size has undefined behaviour. -/
theorem C19_size_nonzero (q0 q : Q) (g : Nat → Byte) (ops : List Op) (outs : List Byte)
    (hg : popsGuarded 0 ops = true) (hr : run (q_init q0 (some g)) ops = some (q, outs)) :
    q.size ≠ 0 ∧ 128 ≤ q.size ∧ q.size ≤ 32768 ∧
    (∀ a q1, q_resize q a = some q1 → (q1.size = 0 ↔ q.size = 32768)) ∧
    (∀ e a, q_is_full q = true → q.size = 32768 → q_push q e a = none) ∧
    (∀ e a q1, q_push q e a = some q1 → q1.size ≠ 0) := by
  obtain ⟨l, hinv, -, -⟩ := reach_inv hg hr
  have hc := inv_capOk hinv
  have hpos := capOk_pos hc
  have hmax := capOk_le hc
  refine ⟨by omega, hpos, hmax, ?_, ?_, ?_⟩
  · intro a q1 h
    rw [q_resize_size h]
    omega
  · intro e a hf hs
    have hlen : q.len = 32768 := by
      simp only [q_is_full, beq_iff_eq] at hf
      omega
    rcases hinv with hgood | ⟨rfl, hst⟩
    · exact q_push_max e a hgood hlen
    · exact q_push_stuck e a hst
  · intro e a q1 h
    have := capOk_pos (q_push_inv hinv h).1
    omega

set_option maxRecDepth 100000 in
/-- C19 at a concrete input: push 1, push 2, pop. -/
theorem C19_size_nonzero_witness :
    (popsGuarded 0 [Op.push 1 none, Op.push 2 none, Op.pop none] = true ∧
      run (q_init junkQ (some zeros)) [Op.push 1 none, Op.push 2 none, Op.pop none] =
        some (afterTwoPushesOnePop, [1])) ∧
    (afterTwoPushesOnePop.size ≠ 0 ∧ 128 ≤ afterTwoPushesOnePop.size ∧
      afterTwoPushesOnePop.size ≤ 32768 ∧
      (∀ a q1, q_resize afterTwoPushesOnePop a = some q1 →
        (q1.size = 0 ↔ afterTwoPushesOnePop.size = 32768)) ∧
      (∀ e a, q_is_full afterTwoPushesOnePop = true → afterTwoPushesOnePop.size = 32768 →
        q_push afterTwoPushesOnePop e a = none) ∧
      (∀ e a q1, q_push afterTwoPushesOnePop e a = some q1 → q1.size ≠ 0)) :=
  ⟨⟨by decide, by decide⟩,
    C19_size_nonzero junkQ afterTwoPushesOnePop zeros
      [Op.push 1 none, Op.push 2 none, Op.pop none] [1] (by decide) (by decide)⟩

theorem capOk_least {n m : Nat} (hc : CapOk n) (h : n = 128 ∨ n < 2 * m) :
    ∀ j, m ≤ 128 * 2 ^ j → n ≤ 128 * 2 ^ j := by
  intro j hj
  rcases h with h | h
  · have := Nat.two_pow_pos j
    omega
  · obtain ⟨k, -, rfl⟩ := hc
    simp only [DEFAULT_QUEUE_SIZE] at *
    by_contra hlt
    have hjk : j + 1 ≤ k := by
      by_contra hnk
      have : 2 ^ k ≤ 2 ^ j := Nat.pow_le_pow_right (by decide) (by omega)
      omega
    have h2 : 2 ^ (j + 1) ≤ 2 ^ k := Nat.pow_le_pow_right (by decide) hjk
    rw [pow_succ] at h2
    omega

/-- C20 (bounded FIFO under 16-bit arithmetic): for every n ≤ 32768 and every byte sequence
of length n, pushing it onto a freshly initialised queue completes with all four fields
inside the uint16_t range, q_len equal to n and size the least value 128 * 2^k that is at
least n, and n subsequent q_pop calls return the sequence in order. -/
theorem C20_bounded_fifo (q0 : Q) (g : Nat → Byte) (ps : List (Byte × (Nat → Byte)))
    (as : List Alloc) (hn : ps.length ≤ 32768) (ha : as.length = ps.length) :
    ∃ q1 q2, run (q_init q0 (some g)) (ps.map pushOp) = some (q1, []) ∧
      q_len q1 = ps.length ∧
      q1.head < 65536 ∧ q1.tail < 65536 ∧ q1.len < 65536 ∧ q1.size < 65536 ∧
      (∃ k, q1.size = 128 * 2 ^ k) ∧ ps.length ≤ q1.size ∧
      (∀ j, ps.length ≤ 128 * 2 ^ j → q1.size ≤ 128 * 2 ^ j) ∧
      run q1 (as.map Op.pop) = some (q2, ps.map Prod.fst) := by
  obtain ⟨q1, h1, h2, h3, h4⟩ := run_pushes_init q0 g ps hn
  obtain ⟨q2, h5, -⟩ := run_pops (ps.map Prod.fst) as (Or.inl h2) (by simpa using ha)
  have hlen : q1.len = ps.length := by rw [h2.2.1, List.length_map]
  have hmax := capOk_le h2.1
  have hpos := capOk_pos h2.1
  have hle := h2.2.2.1
  have htail : q1.tail < q1.size := by
    rw [h2.2.2.2.2.1]; exact Nat.mod_lt _ (by omega)
  obtain ⟨k, -, hk⟩ := h2.1
  exact ⟨q1, q2, h1, hlen, by omega, by omega, by omega, by omega, ⟨k, hk⟩, by omega,
    capOk_least h2.1 (hlen ▸ h4), h5⟩

/-- C20 at a concrete input: the bytes 5, 6, 7. -/
theorem C20_bounded_fifo_witness :
    ([((5 : Byte), zeros), (6, zeros), (7, zeros)].length ≤ 32768 ∧
      [some zeros, none, none].length = [((5 : Byte), zeros), (6, zeros), (7, zeros)].length) ∧
    ∃ q1 q2, run (q_init junkQ (some zeros))
        ([((5 : Byte), zeros), (6, zeros), (7, zeros)].map pushOp) = some (q1, []) ∧
      q_len q1 = [((5 : Byte), zeros), (6, zeros), (7, zeros)].length ∧
      q1.head < 65536 ∧ q1.tail < 65536 ∧ q1.len < 65536 ∧ q1.size < 65536 ∧
      (∃ k, q1.size = 128 * 2 ^ k) ∧
      [((5 : Byte), zeros), (6, zeros), (7, zeros)].length ≤ q1.size ∧
      (∀ j, [((5 : Byte), zeros), (6, zeros), (7, zeros)].length ≤ 128 * 2 ^ j →
        q1.size ≤ 128 * 2 ^ j) ∧
      run q1 ([some zeros, none, none].map Op.pop) =
        some (q2, [((5 : Byte), zeros), (6, zeros), (7, zeros)].map Prod.fst) :=
  ⟨⟨by decide, by decide⟩,
    C20_bounded_fifo junkQ zeros [((5 : Byte), zeros), (6, zeros), (7, zeros)]
      [some zeros, none, none] (by decide) (by decide)⟩

end CircularQueue
